import Mathlib

/-!
# Verification of the FST stream-merge engine (`src/raw/ops.rs`)

This development embeds the k-way merge engine of the repository — the
`StreamOp` builder, the `StreamHeap` of per-stream `Slot`s, and the
`StreamUnion` / `StreamIntersection` cursors — as executable Lean
definitions, and proves the specified properties about them.

Modelling conventions:
* a byte-string key is a `List Nat`; an input stream is the list of
  `(key, output)` pairs its iterator would yield, in order;
* the `u64` output value is a `Nat` (the engine only copies and compares
  output values, and `u64` comparison agrees with `Nat` comparison);
* `std::collections::BinaryHeap` is modelled as a list kept sorted in
  decreasing `Slot.cmp` order, so that the head is the heap's maximum
  element.  Which of several `Slot`s comparing equal is popped first is
  unspecified in the source (`Slot`'s order ignores the stream ordinal);
  the sorted list fixes one admissible choice;
* the two source loops (`while let` drain loop, intersection candidate
  loop) are written with an explicit fuel argument equal to
  `StreamHeap.size`, the total number of pending elements, which strictly
  decreases on every iteration; fuel exhaustion is unreachable (the
  fuel-0 case coincides with the empty-heap exit of the loop).
-/

/-- A byte-string key, one `Nat` per byte. -/
abbrev Key := List Nat

/-- An input stream: the `(key, output)` pairs its iterator yields, in order. -/
abbrev Rdr := List (Key × Nat)

/-- Byte-lexicographic three-way comparison of keys, as `Vec<u8>`'s `Ord`. -/
def keyCmp : Key → Key → Ordering
  | [], [] => .eq
  | [], _ :: _ => .lt
  | _ :: _, [] => .gt
  | a :: as, b :: bs => (compare a b).then (keyCmp as bs)

/-- Strict byte-lexicographic order on keys. -/
def keyLt (a b : Key) : Prop := keyCmp a b = .lt

/-- Non-strict byte-lexicographic order on keys. -/
def keyLe (a b : Key) : Prop := keyCmp a b ≠ .gt

instance (a b : Key) : Decidable (keyLt a b) := by unfold keyLt; infer_instance

instance (a b : Key) : Decidable (keyLe a b) := by unfold keyLe; infer_instance

theorem keyCmp_eq_eq : ∀ {a b : Key}, keyCmp a b = .eq ↔ a = b := by
  intro a
  induction a with
  | nil => intro b; cases b <;> simp [keyCmp]
  | cons x as ih =>
    intro b
    cases b with
    | nil => simp [keyCmp]
    | cons y bs =>
      simp only [keyCmp]
      cases hxy : compare x y with
      | lt => simp [Ordering.then, Nat.compare_eq_lt.mp hxy, Nat.ne_of_lt (Nat.compare_eq_lt.mp hxy)]
      | gt => simp [Ordering.then, Nat.ne_of_gt (Nat.compare_eq_gt.mp hxy)]
      | eq => simp [Ordering.then, ih, Nat.compare_eq_eq.mp hxy]

theorem keyCmp_self (a : Key) : keyCmp a a = .eq := keyCmp_eq_eq.mpr rfl

theorem keyCmp_swap : ∀ (a b : Key), (keyCmp a b).swap = keyCmp b a := by
  intro a
  induction a with
  | nil => intro b; cases b <;> simp [keyCmp, Ordering.swap]
  | cons x as ih =>
    intro b
    cases b with
    | nil => simp [keyCmp, Ordering.swap]
    | cons y bs =>
      simp only [keyCmp]
      have hsw : (compare x y).swap = compare y x := Nat.compare_swap x y
      cases hxy : compare x y with
      | lt =>
        have : compare y x = .gt := by rw [← hsw, hxy]; rfl
        simp [Ordering.then, this, Ordering.swap]
      | gt =>
        have : compare y x = .lt := by rw [← hsw, hxy]; rfl
        simp [Ordering.then, this, Ordering.swap]
      | eq =>
        have : compare y x = .eq := by rw [← hsw, hxy]; rfl
        simp [Ordering.then, this, ih]

theorem keyCmp_gt_iff_lt {a b : Key} : keyCmp a b = .gt ↔ keyCmp b a = .lt := by
  constructor
  · intro h; rw [← keyCmp_swap a b, h]; rfl
  · intro h
    have := keyCmp_swap b a
    rw [h] at this
    exact this.symm

theorem keyLt_trans : ∀ {a b c : Key}, keyLt a b → keyLt b c → keyLt a c := by
  unfold keyLt
  intro a
  induction a with
  | nil =>
    intro b c hab hbc
    cases b with
    | nil => simp [keyCmp] at hab
    | cons y bs =>
      cases c with
      | nil => simp [keyCmp] at hbc
      | cons z cs => simp [keyCmp]
  | cons x as ih =>
    intro b c hab hbc
    cases b with
    | nil => simp [keyCmp] at hab
    | cons y bs =>
      cases c with
      | nil => simp [keyCmp] at hbc
      | cons z cs =>
        simp only [keyCmp] at hab hbc ⊢
        cases hxy : compare x y with
        | gt => rw [hxy] at hab; simp [Ordering.then] at hab
        | lt =>
          have hxylt := Nat.compare_eq_lt.mp hxy
          cases hyz : compare y z with
          | gt => rw [hyz] at hbc; simp [Ordering.then] at hbc
          | lt =>
            have := Nat.lt_trans hxylt (Nat.compare_eq_lt.mp hyz)
            simp [Ordering.then, Nat.compare_eq_lt.mpr this]
          | eq =>
            have := Nat.compare_eq_eq.mp hyz ▸ hxylt
            simp [Ordering.then, Nat.compare_eq_lt.mpr this]
        | eq =>
          have hxye := Nat.compare_eq_eq.mp hxy
          rw [hxy] at hab; simp only [Ordering.then] at hab
          cases hyz : compare y z with
          | gt => rw [hyz] at hbc; simp [Ordering.then] at hbc
          | lt =>
            have := hxye ▸ Nat.compare_eq_lt.mp hyz
            simp [Ordering.then, Nat.compare_eq_lt.mpr this]
          | eq =>
            rw [hyz] at hbc; simp only [Ordering.then] at hbc
            have := hxye.trans (Nat.compare_eq_eq.mp hyz)
            simp [Ordering.then, Nat.compare_eq_eq.mpr this, ih hab hbc]

theorem keyLt_irrefl (a : Key) : ¬ keyLt a a := by
  unfold keyLt; rw [keyCmp_self]; simp

theorem keyLt_asymm {a b : Key} : keyLt a b → ¬ keyLt b a := by
  intro h h'
  exact keyLt_irrefl a (keyLt_trans h h')

theorem keyLe_iff {a b : Key} : keyLe a b ↔ keyLt a b ∨ a = b := by
  unfold keyLe keyLt
  cases h : keyCmp a b with
  | lt => simp
  | gt =>
    have hne : a ≠ b := fun he => by
      rw [keyCmp_eq_eq.mpr he] at h; exact Ordering.noConfusion h
    simp [hne]
  | eq => simp [keyCmp_eq_eq.mp h]

theorem keyLe_refl (a : Key) : keyLe a a := keyLe_iff.mpr (Or.inr rfl)

theorem keyLe_of_lt {a b : Key} (h : keyLt a b) : keyLe a b := keyLe_iff.mpr (Or.inl h)

theorem keyLt_of_le_of_lt {a b c : Key} (hab : keyLe a b) (hbc : keyLt b c) : keyLt a c := by
  rcases keyLe_iff.mp hab with h | h
  · exact keyLt_trans h hbc
  · rwa [h]

theorem keyLt_of_lt_of_le {a b c : Key} (hab : keyLt a b) (hbc : keyLe b c) : keyLt a c := by
  rcases keyLe_iff.mp hbc with h | h
  · exact keyLt_trans hab h
  · rwa [← h]

theorem keyLe_trans {a b c : Key} (hab : keyLe a b) (hbc : keyLe b c) : keyLe a c := by
  rcases keyLe_iff.mp hab with h | h
  · exact keyLe_of_lt (keyLt_of_lt_of_le h hbc)
  · rwa [h]

theorem keyLe_antisymm {a b : Key} (hab : keyLe a b) (hba : keyLe b a) : a = b := by
  rcases keyLe_iff.mp hab with h | h
  · rcases keyLe_iff.mp hba with h' | h'
    · exact absurd h' (keyLt_asymm h)
    · exact h'.symm
  · exact h

theorem keyLt_of_le_of_ne {a b : Key} (hab : keyLe a b) (hne : a ≠ b) : keyLt a b := by
  rcases keyLe_iff.mp hab with h | h
  · exact h
  · exact absurd h hne

theorem keyLt.ne {a b : Key} (h : keyLt a b) : a ≠ b := by
  intro he; subst he; exact keyLt_irrefl a h

/-! ## Data model: `FstOutput`, `Slot` (src/raw/ops.rs lines 9-13, 161-212) -/

/-- A contribution reported for a merged key: the originating stream's
registration index and that stream's output value (`FstOutput`). -/
structure FstOutput where
  index : Nat
  output : Nat
deriving Repr, DecidableEq

/-- A per-stream buffer holding the stream's current head element
(`Slot`).  The capacity-reuse of the byte buffer is a pure allocation
detail and has no observable effect on values. -/
structure Slot where
  idx : Nat
  input : Key
  output : Nat
deriving Repr, DecidableEq

/-- `Slot::new`: fresh slot for stream `rdr_idx`, empty key, zero output. -/
def Slot.new (rdr_idx : Nat) : Slot := ⟨rdr_idx, [], 0⟩

/-- `Slot::fst_output`. -/
def Slot.fst_output (s : Slot) : FstOutput := ⟨s.idx, s.output⟩

/-- The natural lexicographic comparison of the pair `(input, output)`,
as computed by `(&self.input, self.output).partial_cmp(&(...))`. -/
def Slot.pairCmp (a b : Slot) : Ordering :=
  (keyCmp a.input b.input).then (compare a.output b.output)

/-- `Slot`'s `Ord::cmp`: the reverse of the `(input, output)` pair
comparison, so that a max-heap of `Slot`s yields the smallest pair. -/
def Slot.cmp (a b : Slot) : Ordering := (Slot.pairCmp a b).swap

theorem Ordering.swap_eq_lt {o : Ordering} : o.swap = .lt ↔ o = .gt := by
  cases o <;> simp [Ordering.swap]

theorem Slot.pairCmp_swap (a b : Slot) : (Slot.pairCmp a b).swap = Slot.pairCmp b a := by
  unfold Slot.pairCmp
  cases h : keyCmp a.input b.input with
  | lt =>
    have : keyCmp b.input a.input = .gt := by
      rw [keyCmp_gt_iff_lt]; exact h
    simp [Ordering.then, this, Ordering.swap]
  | gt =>
    have : keyCmp b.input a.input = .lt := keyCmp_gt_iff_lt.mp h
    simp [Ordering.then, this, Ordering.swap]
  | eq =>
    have he : a.input = b.input := keyCmp_eq_eq.mp h
    have : keyCmp b.input a.input = .eq := keyCmp_eq_eq.mpr he.symm
    simp [Ordering.then, this, Nat.compare_swap]

theorem Slot.pairCmp_eq_gt {a b : Slot} :
    Slot.pairCmp a b = .gt ↔
      (keyCmp a.input b.input = .gt ∨
        (a.input = b.input ∧ compare a.output b.output = .gt)) := by
  unfold Slot.pairCmp
  cases h : keyCmp a.input b.input with
  | lt =>
    have hne : ¬ a.input = b.input := fun he => by
      rw [keyCmp_eq_eq.mpr he] at h; exact Ordering.noConfusion h
    simp [Ordering.then, hne]
  | gt => simp [Ordering.then]
  | eq => simp [Ordering.then, keyCmp_eq_eq.mp h]

/-- In the descending heap order, `a` is not below `b` exactly when the
`(key, value)` pair of `a` is not above that of `b`. -/
theorem Slot.cmp_ne_lt_iff {a b : Slot} :
    Slot.cmp a b ≠ .lt ↔ Slot.pairCmp a b ≠ .gt := by
  unfold Slot.cmp
  constructor
  · intro h hgt; rw [hgt] at h; exact h rfl
  · intro h hsw; exact h (Ordering.swap_eq_lt.mp hsw)

/-- `Slot.pairCmp` is not-`gt` exactly when the key is strictly below, or
the keys agree and the output is not above. -/
theorem Slot.pairCmp_ne_gt_iff {a b : Slot} :
    Slot.pairCmp a b ≠ .gt ↔
      (keyLt a.input b.input ∨ (a.input = b.input ∧ a.output ≤ b.output)) := by
  rw [show (Slot.pairCmp a b ≠ .gt) = ¬ (Slot.pairCmp a b = .gt) from rfl]
  rw [Slot.pairCmp_eq_gt]
  push_neg
  constructor
  · intro ⟨h1, h2⟩
    by_cases he : a.input = b.input
    · right
      refine ⟨he, ?_⟩
      have := h2 he
      rcases Nat.lt_trichotomy a.output b.output with h | h | h
      · exact Nat.le_of_lt h
      · exact Nat.le_of_eq h
      · exact absurd (Nat.compare_eq_gt.mpr h) this
    · left
      unfold keyLt
      cases hc : keyCmp a.input b.input with
      | lt => rfl
      | eq => exact absurd (keyCmp_eq_eq.mp hc) he
      | gt => exact absurd hc h1
  · intro h
    rcases h with h | ⟨he, ho⟩
    · constructor
      · intro hgt
        exact keyLt_asymm h (keyCmp_gt_iff_lt.mp hgt)
      · intro he
        exact absurd he h.ne
    · constructor
      · intro hgt
        rw [keyCmp_eq_eq.mpr he] at hgt; exact Ordering.noConfusion hgt
      · intro _ hgt
        exact absurd (Nat.compare_eq_gt.mp hgt) (Nat.not_lt.mpr ho)

theorem Slot.pairLe_key {a b : Slot} (h : Slot.pairCmp a b ≠ .gt) :
    keyLe a.input b.input := by
  rcases Slot.pairCmp_ne_gt_iff.mp h with h' | ⟨he, _⟩
  · exact keyLe_of_lt h'
  · exact keyLe_iff.mpr (Or.inr he)

theorem Slot.pairLe_refl (a : Slot) : Slot.pairCmp a a ≠ .gt :=
  Slot.pairCmp_ne_gt_iff.mpr (Or.inr ⟨rfl, Nat.le_refl _⟩)

theorem Slot.pairLe_trans {a b c : Slot}
    (hab : Slot.pairCmp a b ≠ .gt) (hbc : Slot.pairCmp b c ≠ .gt) :
    Slot.pairCmp a c ≠ .gt := by
  rw [Slot.pairCmp_ne_gt_iff] at hab hbc ⊢
  rcases hab with h1 | ⟨e1, o1⟩
  · rcases hbc with h2 | ⟨e2, _⟩
    · exact Or.inl (keyLt_trans h1 h2)
    · exact Or.inl (e2 ▸ h1)
  · rcases hbc with h2 | ⟨e2, o2⟩
    · exact Or.inl (e1 ▸ h2)
    · exact Or.inr ⟨e1.trans e2, Nat.le_trans o1 o2⟩

theorem Slot.pairLe_total (a b : Slot) :
    Slot.pairCmp a b ≠ .gt ∨ Slot.pairCmp b a ≠ .gt := by
  by_cases h : Slot.pairCmp a b = .gt
  · right
    intro h'
    have := Slot.pairCmp_swap a b
    rw [h] at this
    rw [← this] at h'
    exact Ordering.noConfusion h'
  · exact Or.inl h

/-! ## The slot heap (`StreamHeap`, src/raw/ops.rs lines 115-159)

`BinaryHeap<Slot>` is modelled as a list sorted in decreasing `Slot.cmp`
order (head = maximum = slot with the smallest `(key, value)` pair).
`heapPush` is ordered insertion; the position of a slot among slots
comparing equal is unspecified in the source, and the model fixes the
choice of inserting before them. -/

/-- Insert a slot into the descending-sorted heap list. -/
def heapPush (s : Slot) : List Slot → List Slot
  | [] => [s]
  | x :: t => if Slot.cmp s x = .lt then x :: heapPush s t else s :: x :: t

/-- The heap list invariant: sorted in decreasing `Slot.cmp` order. -/
def HSorted (l : List Slot) : Prop := l.Pairwise (fun a b => Slot.cmp a b ≠ .lt)

instance (l : List Slot) : Decidable (HSorted l) := by
  unfold HSorted; infer_instance

/-- `StreamHeap`: the owned input streams (by registration ordinal) and
the priority collection of live slots. -/
structure StreamHeap where
  rdrs : List Rdr
  heap : List Slot
deriving Repr, DecidableEq

/-- `StreamHeap::refill(slot)`: pull the next element of the slot's
stream; on success overwrite the slot's key/output and reinsert it, on
exhaustion drop the slot. -/
def StreamHeap.refill (h : StreamHeap) (slot : Slot) : StreamHeap :=
  match h.rdrs.getD slot.idx [] with
  | [] => h
  | kv :: rest =>
    { rdrs := h.rdrs.set slot.idx rest
      heap := heapPush ⟨slot.idx, kv.1, kv.2⟩ h.heap }

/-- `StreamHeap::new(streams)`: take ownership of the streams and prime
the heap with one refill per ordinal. -/
def StreamHeap.new (streams : List Rdr) : StreamHeap :=
  (List.range streams.length).foldl (fun h i => h.refill (Slot.new i)) ⟨streams, []⟩

/-- `StreamHeap::pop`: remove and return the heap's maximum slot (the
smallest pending `(key, value)` pair), if any. -/
def StreamHeap.pop (h : StreamHeap) : Option (Slot × StreamHeap) :=
  match h.heap with
  | [] => none
  | s :: t => some (s, ⟨h.rdrs, t⟩)

/-- `StreamHeap::peek_is_duplicate(key)`. -/
def StreamHeap.peek_is_duplicate (h : StreamHeap) (key : Key) : Bool :=
  match h.heap with
  | [] => false
  | s :: _ => s.input == key

/-- `StreamHeap::pop_if_equal(key)`: pop the top slot only if its key
equals `key`; otherwise leave the heap untouched. -/
def StreamHeap.pop_if_equal (h : StreamHeap) (key : Key) : Option Slot × StreamHeap :=
  if h.peek_is_duplicate key then
    match h.pop with
    | some (s, h') => (some s, h')
    | none => (none, h)
  else (none, h)

/-- `StreamHeap::num_slots`: the registered stream count, exhausted
streams included. -/
def StreamHeap.num_slots (h : StreamHeap) : Nat := h.rdrs.length

/-- Total number of pending elements (heap heads plus unread stream
elements); the loop variant of both merge loops. -/
def StreamHeap.size (h : StreamHeap) : Nat :=
  (h.rdrs.map List.length).sum + h.heap.length

/-! ## The merge cursors (src/raw/ops.rs lines 48-113)

Both source loops are written with a fuel argument; fuel
`StreamHeap.size` is always sufficient (each iteration pops one slot,
and a refill re-adds at most one while consuming one stream element, so
`size` strictly decreases per iteration), and on fuel 0 the heap is
empty, which coincides with the loop's empty-heap exit. -/

/-- The `while let Some(slot2) = heap.pop_if_equal(key)` drain loop shared
by union and intersection: pop every slot whose key equals `key`,
append its contribution, and refill it at once. -/
def drainLoopF : Nat → StreamHeap → Key → List FstOutput → StreamHeap × List FstOutput
  | 0, h, _, outs => (h, outs)
  | f + 1, h, key, outs =>
    match h.pop_if_equal key with
    | (some slot2, h1) => drainLoopF f (h1.refill slot2) key (outs ++ [slot2.fst_output])
    | (none, _) => (h, outs)

/-- The drain loop entered with sufficient fuel. -/
def drainLoop (h : StreamHeap) (key : Key) (outs : List FstOutput) :
    StreamHeap × List FstOutput :=
  drainLoopF h.size h key outs

/-- The union cursor: the heap plus the withheld slot of the previous
emission (`cur_slot`), not yet refilled. -/
structure StreamUnion where
  heap : StreamHeap
  cur_slot : Option Slot
deriving Repr, DecidableEq

/-- `StreamUnion::next` (src/raw/ops.rs lines 57-75): lazily refill the
withheld slot, pop the minimum, drain all slots tied on its key, and
withhold the popped slot.  Returns the emitted `(key, contributions)`
pair (or `none` at exhaustion) together with the successor state. -/
def StreamUnion.next (u : StreamUnion) : Option (Key × List FstOutput) × StreamUnion :=
  let h0 := match u.cur_slot with
    | some slot => u.heap.refill slot
    | none => u.heap
  match h0.pop with
  | none => (none, ⟨h0, none⟩)
  | some (slot, h1) =>
    let r := drainLoop h1 slot.input [slot.fst_output]
    (some (slot.input, r.2), ⟨r.1, some slot⟩)

/-- Iterated `next`: the list of emissions produced by up to `fuel`
calls, stopping at the first exhausted call. -/
def StreamUnion.run (u : StreamUnion) : Nat → List (Key × List FstOutput)
  | 0 => []
  | fuel + 1 =>
    match u.next with
    | (none, _) => []
    | (some item, u') => item :: u'.run fuel

/-- The state reached after `n` calls to `next`. -/
def StreamUnion.steps (u : StreamUnion) : Nat → StreamUnion
  | 0 => u
  | n + 1 => (u.next.2).steps n

/-- The intersection cursor. -/
structure StreamIntersection where
  heap : StreamHeap
  cur_slot : Option Slot
deriving Repr, DecidableEq

/-- The candidate loop of `StreamIntersection::next` (src/raw/ops.rs
lines 91-111): pop a candidate, drain its ties counting matches, emit if
the match count reaches `num_slots()`, otherwise refill and retry. -/
def interLoopF : Nat → StreamHeap → Option (Key × List FstOutput) × StreamHeap × Option Slot
  | 0, h => (none, h, none)
  | f + 1, h =>
    match h.pop with
    | none => (none, h, none)
    | some (slot, h1) =>
      let r := drainLoop h1 slot.input [slot.fst_output]
      if r.2.length < r.1.num_slots then interLoopF f (r.1.refill slot)
      else (some (slot.input, r.2), r.1, some slot)

/-- The candidate loop entered with sufficient fuel. -/
def interLoop (h : StreamHeap) : Option (Key × List FstOutput) × StreamHeap × Option Slot :=
  interLoopF h.size h

/-- `StreamIntersection::next` (src/raw/ops.rs lines 87-112). -/
def StreamIntersection.next (u : StreamIntersection) :
    Option (Key × List FstOutput) × StreamIntersection :=
  let h0 := match u.cur_slot with
    | some slot => u.heap.refill slot
    | none => u.heap
  match interLoop h0 with
  | (res, h, c) => (res, ⟨h, c⟩)

/-- Iterated `next` for the intersection cursor. -/
def StreamIntersection.run (u : StreamIntersection) : Nat → List (Key × List FstOutput)
  | 0 => []
  | fuel + 1 =>
    match u.next with
    | (none, _) => []
    | (some item, u') => item :: u'.run fuel

/-- The state reached after `n` calls to `next`. -/
def StreamIntersection.steps (u : StreamIntersection) : Nat → StreamIntersection
  | 0 => u
  | n + 1 => (u.next.2).steps n

/-! ## The builder (`StreamOp`, src/raw/ops.rs lines 15-46) -/

/-- `StreamOp`: the accumulated input streams, in registration order. -/
structure StreamOp where
  streams : List Rdr
deriving Repr, DecidableEq

/-- `StreamOp::new`. -/
def StreamOp.new : StreamOp := ⟨[]⟩

/-- `StreamOp::add`: append one input stream (consuming the builder). -/
def StreamOp.add (op : StreamOp) (s : Rdr) : StreamOp := ⟨op.streams ++ [s]⟩

/-- A builder loaded with the given streams via repeated `add`. -/
def StreamOp.ofList (streams : List Rdr) : StreamOp :=
  streams.foldl StreamOp.add StreamOp.new

/-- `StreamOp::union`. -/
def StreamOp.union (op : StreamOp) : StreamUnion :=
  ⟨StreamHeap.new op.streams, none⟩

/-- `StreamOp::intersection`. -/
def StreamOp.intersection (op : StreamOp) : StreamIntersection :=
  ⟨StreamHeap.new op.streams, none⟩

theorem StreamOp.ofList_streams (streams : List Rdr) :
    (StreamOp.ofList streams).streams = streams := by
  suffices h : ∀ pre : List Rdr,
      (streams.foldl StreamOp.add ⟨pre⟩).streams = pre ++ streams by
    simpa using h []
  induction streams with
  | nil => intro pre; simp [List.foldl]
  | cons s rest ih =>
    intro pre
    simp [List.foldl, StreamOp.add, ih, List.append_assoc]

/-! ## List access helpers -/

theorem getD_of_ge {α : Type} (d : α) : ∀ (l : List α) (i : Nat), l.length ≤ i → l.getD i d = d := by
  intro l
  induction l with
  | nil => intro i _; cases i <;> rfl
  | cons x t ih =>
    intro i hi
    cases i with
    | zero => simp at hi
    | succ j => simpa [List.getD] using ih j (Nat.le_of_succ_le_succ hi)

theorem lt_length_of_getD_ne {α : Type} (d : α) {l : List α} {i : Nat}
    (h : l.getD i d ≠ d) : i < l.length := by
  by_contra hge
  exact h (getD_of_ge d l i (Nat.le_of_not_lt hge))

theorem getD_set_self {α : Type} (d : α) :
    ∀ (l : List α) (i : Nat) (x : α), i < l.length → (l.set i x).getD i d = x := by
  intro l
  induction l with
  | nil => intro i x hi; simp at hi
  | cons y t ih =>
    intro i x hi
    cases i with
    | zero => rfl
    | succ j => simpa [List.set, List.getD] using ih j x (Nat.lt_of_succ_lt_succ hi)

theorem getD_set_ne {α : Type} (d : α) :
    ∀ (l : List α) (i j : Nat) (x : α), i ≠ j → (l.set i x).getD j d = l.getD j d := by
  intro l
  induction l with
  | nil => intro i j x _; simp [List.set]
  | cons y t ih =>
    intro i j x hij
    cases i with
    | zero =>
      cases j with
      | zero => exact absurd rfl hij
      | succ j' => rfl
    | succ i' =>
      cases j with
      | zero => rfl
      | succ j' =>
        simpa [List.set, List.getD] using ih i' j' x (fun he => hij (by rw [he]))

/-- Sum of the stream lengths. -/
def sumLen (l : List Rdr) : Nat := (l.map List.length).sum

theorem sumLen_set : ∀ (l : List Rdr) (i : Nat) (x : Rdr), i < l.length →
    sumLen (l.set i x) + (l.getD i []).length = sumLen l + x.length := by
  intro l
  induction l with
  | nil => intro i x hi; simp at hi
  | cons y t ih =>
    intro i x hi
    cases i with
    | zero =>
      show sumLen (x :: t) + y.length = sumLen (y :: t) + x.length
      simp [sumLen]
      omega
    | succ j =>
      have hrec := ih j x (Nat.lt_of_succ_lt_succ hi)
      show sumLen (y :: t.set j x) + (t.getD j []).length = sumLen (y :: t) + x.length
      simp [sumLen] at hrec ⊢
      omega

/-! ## The pending-keys abstraction

For each stream ordinal `i`, `StreamHeap.pending h i` is the list of
keys the merge has not yet reported from stream `i`: the key of stream
`i`'s slot (if one is in the heap) followed by the keys of the unread
elements of stream `i`. -/

/-- The slot of ordinal `i` currently in the heap list, if any. -/
def slotFor (hp : List Slot) (i : Nat) : Option Slot :=
  hp.find? (fun s => s.idx == i)

/-- The keys of one input stream, in order. -/
def rdrKeys (r : Rdr) : List Key := r.map Prod.fst

/-- The pending (unreported) keys of stream `i`. -/
def StreamHeap.pending (h : StreamHeap) (i : Nat) : List Key :=
  (match slotFor h.heap i with
   | some s => [s.input]
   | none => []) ++ rdrKeys (h.rdrs.getD i [])

theorem slotFor_eq_none_iff {hp : List Slot} {i : Nat} :
    slotFor hp i = none ↔ ∀ s ∈ hp, s.idx ≠ i := by
  unfold slotFor
  rw [List.find?_eq_none]
  simp

theorem slotFor_mem {hp : List Slot} {i : Nat} {s : Slot}
    (h : slotFor hp i = some s) : s ∈ hp ∧ s.idx = i := by
  refine ⟨List.mem_of_find?_eq_some h, ?_⟩
  have := List.find?_some h
  simpa using this

theorem slotFor_eq_some_of_mem : ∀ {hp : List Slot} {i : Nat} {s : Slot},
    (hp.map Slot.idx).Nodup → s ∈ hp → s.idx = i → slotFor hp i = some s := by
  intro hp
  induction hp with
  | nil => intro i s _ hs; simp at hs
  | cons x t ih =>
    intro i s hnd hs hi
    rcases List.mem_cons.mp hs with he | ht
    · subst he
      unfold slotFor
      simp [List.find?, hi]
    · have hxne : x.idx ≠ i := by
        intro hxe
        have : s.idx ∈ t.map Slot.idx := List.mem_map_of_mem Slot.idx ht
        rw [hi, ← hxe] at this
        exact (List.nodup_cons.mp (by simpa using hnd)).1 this
      unfold slotFor
      simp only [List.find?]
      have hfalse : (x.idx == i) = false := by simpa using hxne
      rw [hfalse]
      simpa [slotFor] using ih (List.nodup_cons.mp (by simpa using hnd)).2 ht hi

theorem slotFor_isSome_of_mem {hp : List Slot} {i : Nat} {s : Slot}
    (hs : s ∈ hp) (hi : s.idx = i) : slotFor hp i ≠ none := by
  intro hnone
  exact slotFor_eq_none_iff.mp hnone s hs hi

/-! ## Heap push lemmas -/

theorem heapPush_perm (s : Slot) : ∀ l : List Slot, (heapPush s l).Perm (s :: l) := by
  intro l
  induction l with
  | nil => simp [heapPush]
  | cons x t ih =>
    unfold heapPush
    by_cases hc : Slot.cmp s x = .lt
    · rw [if_pos hc]
      exact (List.Perm.cons x ih).trans (List.Perm.swap s x t)
    · rw [if_neg hc]

theorem mem_heapPush {s x : Slot} {l : List Slot} :
    x ∈ heapPush s l ↔ x = s ∨ x ∈ l := by
  rw [(heapPush_perm s l).mem_iff]
  simp

theorem heapPush_map_idx_perm (s : Slot) (l : List Slot) :
    ((heapPush s l).map Slot.idx).Perm (s.idx :: l.map Slot.idx) :=
  (heapPush_perm s l).map Slot.idx

theorem heapPush_nodup {s : Slot} {l : List Slot}
    (hnd : (l.map Slot.idx).Nodup) (hs : ∀ x ∈ l, x.idx ≠ s.idx) :
    ((heapPush s l).map Slot.idx).Nodup := by
  refine ((heapPush_map_idx_perm s l).nodup_iff).mpr ?_
  rw [List.nodup_cons]
  refine ⟨?_, hnd⟩
  intro hmem
  rcases List.mem_map.mp hmem with ⟨x, hx, he⟩
  exact hs x hx he

theorem heapPush_sorted {s : Slot} : ∀ {l : List Slot}, HSorted l → HSorted (heapPush s l) := by
  intro l
  induction l with
  | nil => intro _; simp [heapPush, HSorted]
  | cons x t ih =>
    intro hs
    rcases (List.pairwise_cons.mp hs) with ⟨hx, ht⟩
    unfold heapPush
    by_cases hc : Slot.cmp s x = .lt
    · rw [if_pos hc]
      refine List.pairwise_cons.mpr ⟨?_, ih ht⟩
      intro y hy
      rcases mem_heapPush.mp hy with he | hyt
      · rw [he]
        have hgt : Slot.pairCmp s x = .gt := Ordering.swap_eq_lt.mp hc
        have hxs : Slot.pairCmp x s = .lt := by
          rw [← Slot.pairCmp_swap s x, hgt]; rfl
        unfold Slot.cmp
        rw [hxs]
        simp [Ordering.swap]
      · exact hx y hyt
    · rw [if_neg hc]
      refine List.pairwise_cons.mpr ⟨?_, hs⟩
      intro y hy
      rcases List.mem_cons.mp hy with he | hyt
      · subst he; exact hc
      · exact Slot.cmp_ne_lt_iff.mpr
          (Slot.pairLe_trans (Slot.cmp_ne_lt_iff.mp hc) (Slot.cmp_ne_lt_iff.mp (hx y hyt)))

/-! ## Refill lemmas -/

theorem refill_num_slots (h : StreamHeap) (s : Slot) :
    (h.refill s).num_slots = h.num_slots := by
  unfold StreamHeap.refill
  cases hrd : h.rdrs.getD s.idx [] with
  | nil => rfl
  | cons kv rest => simp [StreamHeap.num_slots]

theorem refill_size (h : StreamHeap) (s : Slot) : (h.refill s).size = h.size := by
  unfold StreamHeap.refill
  cases hrd : h.rdrs.getD s.idx [] with
  | nil => rfl
  | cons kv rest =>
    have hlt : s.idx < h.rdrs.length := lt_length_of_getD_ne [] (by rw [hrd]; simp)
    have hsum := sumLen_set h.rdrs s.idx rest hlt
    rw [hrd] at hsum
    have hpl : (heapPush ⟨s.idx, kv.1, kv.2⟩ h.heap).length = h.heap.length + 1 :=
      (heapPush_perm _ h.heap).length_eq
    simp only [StreamHeap.size, sumLen] at *
    simp only [List.length_cons] at hsum
    omega

theorem refill_heap_subset {h : StreamHeap} {s : Slot} :
    ∀ x ∈ h.heap, x ∈ (h.refill s).heap := by
  intro x hx
  unfold StreamHeap.refill
  cases hrd : h.rdrs.getD s.idx [] with
  | nil => exact hx
  | cons kv rest => exact mem_heapPush.mpr (Or.inr hx)

theorem refill_heap_mem {h : StreamHeap} {s : Slot} :
    ∀ x ∈ (h.refill s).heap, x ∈ h.heap ∨ x.idx = s.idx := by
  intro x hx
  unfold StreamHeap.refill at hx
  cases hrd : h.rdrs.getD s.idx [] with
  | nil => rw [hrd] at hx; exact Or.inl hx
  | cons kv rest =>
    rw [hrd] at hx
    simp only at hx
    rcases mem_heapPush.mp hx with he | hm
    · subst he; exact Or.inr rfl
    · exact Or.inl hm

theorem refill_sorted {h : StreamHeap} {s : Slot} (hs : HSorted h.heap) :
    HSorted (h.refill s).heap := by
  unfold StreamHeap.refill
  cases h.rdrs.getD s.idx [] with
  | nil => exact hs
  | cons kv rest => exact heapPush_sorted hs

theorem refill_nodup {h : StreamHeap} {s : Slot}
    (hno : slotFor h.heap s.idx = none) (hnd : (h.heap.map Slot.idx).Nodup) :
    ((h.refill s).heap.map Slot.idx).Nodup := by
  unfold StreamHeap.refill
  cases h.rdrs.getD s.idx [] with
  | nil => exact hnd
  | cons kv rest =>
    exact heapPush_nodup hnd (fun x hx => slotFor_eq_none_iff.mp hno x hx)

theorem refill_idxLt {h : StreamHeap} {s : Slot}
    (hidx : ∀ x ∈ h.heap, x.idx < h.num_slots) :
    ∀ x ∈ (h.refill s).heap, x.idx < (h.refill s).num_slots := by
  intro x hx
  rw [refill_num_slots]
  unfold StreamHeap.refill at hx
  cases hrd : h.rdrs.getD s.idx [] with
  | nil => rw [hrd] at hx; exact hidx x hx
  | cons kv rest =>
    rw [hrd] at hx
    simp only at hx
    rcases mem_heapPush.mp hx with he | hm
    · subst he
      exact lt_length_of_getD_ne [] (fun hc => by rw [hc] at hrd; exact List.noConfusion hrd)
    · exact hidx x hm

theorem refill_pending {h : StreamHeap} {s : Slot}
    (hno : slotFor h.heap s.idx = none) (hnd : (h.heap.map Slot.idx).Nodup) :
    ∀ i, (h.refill s).pending i = h.pending i := by
  intro i
  unfold StreamHeap.refill
  cases hrd : h.rdrs.getD s.idx [] with
  | nil => rfl
  | cons kv rest =>
    have hlt : s.idx < h.rdrs.length := lt_length_of_getD_ne [] (by rw [hrd]; simp)
    by_cases hi : i = s.idx
    · subst hi
      have hmem : (⟨s.idx, kv.1, kv.2⟩ : Slot) ∈ heapPush ⟨s.idx, kv.1, kv.2⟩ h.heap :=
        mem_heapPush.mpr (Or.inl rfl)
      have hnd' : ((heapPush ⟨s.idx, kv.1, kv.2⟩ h.heap).map Slot.idx).Nodup :=
        heapPush_nodup hnd (fun x hx => slotFor_eq_none_iff.mp hno x hx)
      have hsf : slotFor (heapPush ⟨s.idx, kv.1, kv.2⟩ h.heap) s.idx = some ⟨s.idx, kv.1, kv.2⟩ :=
        slotFor_eq_some_of_mem hnd' hmem rfl
      simp only [StreamHeap.pending, hsf, hno]
      rw [getD_set_self [] h.rdrs s.idx rest hlt, hrd]
      simp [rdrKeys]
    · have hne : ∀ x ∈ heapPush ⟨s.idx, kv.1, kv.2⟩ h.heap, x.idx = i → x ∈ h.heap := by
        intro x hx hxe
        rcases mem_heapPush.mp hx with he | hm
        · subst he; exact absurd hxe.symm hi
        · exact hm
      have hsf : slotFor (heapPush ⟨s.idx, kv.1, kv.2⟩ h.heap) i = slotFor h.heap i := by
        cases hold : slotFor h.heap i with
        | some u =>
          have hu := slotFor_mem hold
          have hnd' : ((heapPush ⟨s.idx, kv.1, kv.2⟩ h.heap).map Slot.idx).Nodup :=
            heapPush_nodup hnd (fun x hx => slotFor_eq_none_iff.mp hno x hx)
          exact slotFor_eq_some_of_mem hnd' (mem_heapPush.mpr (Or.inr hu.1)) hu.2
        | none =>
          rw [slotFor_eq_none_iff]
          intro x hx hxe
          exact slotFor_eq_none_iff.mp hold x (hne x hx hxe) hxe
      simp only [StreamHeap.pending, hsf]
      rw [getD_set_ne [] h.rdrs s.idx i rest (fun he => hi he.symm)]

/-! ## Pop and pending lemmas -/

theorem pop_eq_none_iff {h : StreamHeap} : h.pop = none ↔ h.heap = [] := by
  unfold StreamHeap.pop
  cases h.heap <;> simp

theorem pending_of_ge {h : StreamHeap}
    (hidx : ∀ x ∈ h.heap, x.idx < h.num_slots) {i : Nat}
    (hi : h.num_slots ≤ i) : h.pending i = [] := by
  have hno : slotFor h.heap i = none := by
    rw [slotFor_eq_none_iff]
    intro x hx he
    exact Nat.lt_irrefl i (Nat.lt_of_lt_of_le (he ▸ hidx x hx) hi)
  simp only [StreamHeap.pending, hno]
  rw [getD_of_ge [] h.rdrs i hi]
  simp [rdrKeys]

/-- The global invariant of the slot heap. -/
def HInv (h : StreamHeap) : Prop :=
  HSorted h.heap ∧
  (∀ s ∈ h.heap, s.idx < h.num_slots) ∧
  (h.heap.map Slot.idx).Nodup ∧
  (∀ i < h.num_slots, (h.pending i).Pairwise keyLt)

/-- Coverage: every stream (other than the excluded withheld ordinal)
with unread elements has its slot in the heap. -/
def Cover (h : StreamHeap) (ex : Option Nat) : Prop :=
  ∀ i < h.num_slots, slotFor h.heap i = none → ex ≠ some i → h.pending i = []

/-- The between-calls invariant of a merge cursor: heap invariant,
coverage away from the withheld slot, and the withheld slot's key being
strictly below every pending key. -/
def CInv (h : StreamHeap) (cur : Option Slot) : Prop :=
  HInv h ∧ Cover h (cur.map Slot.idx) ∧
  (match cur with
   | none => True
   | some c => c.idx < h.num_slots ∧ slotFor h.heap c.idx = none ∧
       ∀ i < h.num_slots, ∀ k ∈ h.pending i, keyLt c.input k)

instance (h : StreamHeap) : Decidable (∀ i < h.num_slots, (h.pending i).Pairwise keyLt) :=
  Nat.decidableBallLT _ _

instance (h : StreamHeap) : Decidable (HInv h) := by
  unfold HInv HSorted; infer_instance

instance (h : StreamHeap) (ex : Option Nat) : Decidable (Cover h ex) := by
  unfold Cover; exact Nat.decidableBallLT _ _

instance (h : StreamHeap) (c : Slot) :
    Decidable (∀ i < h.num_slots, ∀ k ∈ h.pending i, keyLt c.input k) :=
  Nat.decidableBallLT _ _

instance (h : StreamHeap) (cur : Option Slot) : Decidable (CInv h cur) := by
  unfold CInv; cases cur <;> infer_instance

theorem pending_sorted_all {h : StreamHeap} (hv : HInv h) :
    ∀ i, (h.pending i).Pairwise keyLt := by
  intro i
  by_cases hi : i < h.num_slots
  · exact hv.2.2.2 i hi
  · rw [pending_of_ge hv.2.1 (Nat.le_of_not_lt hi)]
    exact List.Pairwise.nil

theorem slotFor_cons_self {s0 : Slot} {t : List Slot} : slotFor (s0 :: t) s0.idx = some s0 := by
  unfold slotFor
  simp [List.find?]

theorem slotFor_cons_ne {s0 : Slot} {t : List Slot} {i : Nat} (hne : s0.idx ≠ i) :
    slotFor (s0 :: t) i = slotFor t i := by
  unfold slotFor
  simp only [List.find?]
  rw [show (s0.idx == i) = false by simpa using hne]

theorem pending_cons_head {h : StreamHeap} {s0 : Slot} {t : List Slot} (hh : h.heap = s0 :: t) :
    h.pending s0.idx = s0.input :: rdrKeys (h.rdrs.getD s0.idx []) := by
  simp only [StreamHeap.pending, hh, slotFor_cons_self]
  rfl

theorem pending_no_slot {h : StreamHeap} {i : Nat} (hno : slotFor h.heap i = none) :
    h.pending i = rdrKeys (h.rdrs.getD i []) := by
  simp only [StreamHeap.pending, hno]
  rfl

theorem pending_some_slot {h : StreamHeap} {i : Nat} {s : Slot}
    (hs : slotFor h.heap i = some s) :
    h.pending i = s.input :: rdrKeys (h.rdrs.getD i []) := by
  simp only [StreamHeap.pending, hs]
  rfl

/-- The key of any slot in the heap is pending for its stream. -/
theorem slot_key_pending {h : StreamHeap} (hnd : (h.heap.map Slot.idx).Nodup)
    {s : Slot} (hs : s ∈ h.heap) : s.input ∈ h.pending s.idx := by
  rw [pending_some_slot (slotFor_eq_some_of_mem hnd hs rfl)]
  exact List.mem_cons_self _ _

/-- The head of the (sorted, covered) heap has the smallest pending key. -/
theorem heap_head_min {h : StreamHeap} (hv : HInv h) (hcov : Cover h none)
    {s0 : Slot} {t : List Slot} (hh : h.heap = s0 :: t) :
    ∀ i, ∀ k ∈ h.pending i, keyLe s0.input k := by
  obtain ⟨hs, hidx, hnd, hpend⟩ := hv
  intro i k hk
  by_cases hi : i < h.num_slots
  · cases hsf : slotFor h.heap i with
    | none =>
      rw [hcov i hi hsf (by simp)] at hk
      simp at hk
    | some u =>
      have hu := slotFor_mem hsf
      have hle : keyLe s0.input u.input := by
        rw [hh] at hu
        rcases List.mem_cons.mp hu.1 with he | hut
        · rw [he]; exact keyLe_refl _
        · have := (List.pairwise_cons.mp (hh ▸ hs)).1 u hut
          exact Slot.pairLe_key (Slot.cmp_ne_lt_iff.mp this)
      rw [pending_some_slot hsf] at hk
      rcases List.mem_cons.mp hk with he | hkt
      · rw [he]; exact hle
      · have hsorted := hpend i hi
        rw [pending_some_slot hsf] at hsorted
        have := (List.pairwise_cons.mp hsorted).1 k hkt
        exact keyLe_trans hle (keyLe_of_lt this)
  · rw [pending_of_ge hidx (Nat.le_of_not_lt hi)] at hk
    simp at hk

/-- Refilling leaves the slots of other ordinals untouched. -/
theorem slotFor_refill_ne {h : StreamHeap} {s : Slot}
    (hno : slotFor h.heap s.idx = none) (hnd : (h.heap.map Slot.idx).Nodup)
    {i : Nat} (hi : i ≠ s.idx) :
    slotFor (h.refill s).heap i = slotFor h.heap i := by
  unfold StreamHeap.refill
  cases hrd : h.rdrs.getD s.idx [] with
  | nil => rfl
  | cons kv rest =>
    simp only
    cases hold : slotFor h.heap i with
    | some u =>
      have hu := slotFor_mem hold
      exact slotFor_eq_some_of_mem
        (heapPush_nodup hnd (fun x hx => slotFor_eq_none_iff.mp hno x hx))
        (mem_heapPush.mpr (Or.inr hu.1)) hu.2
    | none =>
      rw [slotFor_eq_none_iff]
      intro x hx he
      rcases mem_heapPush.mp hx with hxe | hxm
      · apply hi
        rw [← he, hxe]
      · exact slotFor_eq_none_iff.mp hold x hxm he

/-- If the refilled slot is absent afterwards, the stream was exhausted
and the refill was a no-op. -/
theorem refill_drop {h : StreamHeap} {s : Slot}
    (hdrop : slotFor (h.refill s).heap s.idx = none) :
    h.refill s = h ∧ h.rdrs.getD s.idx [] = [] := by
  cases hrd : h.rdrs.getD s.idx [] with
  | nil =>
    constructor
    · unfold StreamHeap.refill
      rw [hrd]
    · rfl
  | cons kv rest =>
    exfalso
    have hheap : (h.refill s).heap = heapPush ⟨s.idx, kv.1, kv.2⟩ h.heap := by
      unfold StreamHeap.refill
      rw [hrd]
    rw [hheap] at hdrop
    exact slotFor_eq_none_iff.mp hdrop ⟨s.idx, kv.1, kv.2⟩ (mem_heapPush.mpr (Or.inl rfl)) rfl

/-- Refilling the withheld slot restores full coverage. -/
theorem refill_cover {h : StreamHeap} {c : Slot}
    (hno : slotFor h.heap c.idx = none) (hnd : (h.heap.map Slot.idx).Nodup)
    (hcov : Cover h (some c.idx)) : Cover (h.refill c) none := by
  intro i hi hnoR _
  rw [refill_num_slots] at hi
  rw [refill_pending hno hnd i]
  by_cases hic : i = c.idx
  · subst hic
    obtain ⟨_, hrd⟩ := refill_drop hnoR
    rw [pending_no_slot hno, hrd]
    rfl
  · rw [slotFor_refill_ne hno hnd hic] at hnoR
    exact hcov i hi hnoR (by simpa using fun he => hic he.symm)

/-- Refilling the withheld slot of a well-formed cursor state: the heap
invariant, full coverage and all pending keys are preserved. -/
theorem refill_cur {h : StreamHeap} {c : Slot} (hv : CInv h (some c)) :
    HInv (h.refill c) ∧ Cover (h.refill c) none ∧
    (∀ i, (h.refill c).pending i = h.pending i) ∧
    (h.refill c).size = h.size ∧ (h.refill c).num_slots = h.num_slots := by
  obtain ⟨⟨hs, hidx, hnd, hpend⟩, hcov, hc⟩ := hv
  obtain ⟨hclt, hcno, _⟩ := hc
  have hpeq := refill_pending (s := c) hcno hnd
  refine ⟨⟨refill_sorted hs, refill_idxLt hidx, refill_nodup hcno hnd, ?_⟩,
    refill_cover hcno hnd hcov, hpeq, refill_size h c, refill_num_slots h c⟩
  intro i hi
  rw [hpeq i]
  exact hpend i (by rwa [refill_num_slots] at hi)

theorem pending_pop_other {rdrs : List Rdr} {s0 : Slot} {t : List Slot} {i : Nat}
    (hne : s0.idx ≠ i) :
    StreamHeap.pending ⟨rdrs, t⟩ i = StreamHeap.pending ⟨rdrs, s0 :: t⟩ i := by
  show (match slotFor t i with
        | some s => [s.input]
        | none => []) ++ rdrKeys (rdrs.getD i []) =
      (match slotFor (s0 :: t) i with
        | some s => [s.input]
        | none => []) ++ rdrKeys (rdrs.getD i [])
  rw [slotFor_cons_ne hne]

/-! ## The drain loop lemma -/

theorem getD_mem_or {α : Type} (d : α) :
    ∀ (l : List α) (i : Nat), l.getD i d ∈ l ∨ l.getD i d = d := by
  intro l
  induction l with
  | nil => intro i; right; cases i <;> rfl
  | cons x t ih =>
    intro i
    cases i with
    | zero => left; exact List.mem_cons_self _ _
    | succ j =>
      rcases ih j with hm | he
      · left; exact List.mem_cons_of_mem x hm
      · right; exact he

theorem of_size_le_zero {h : StreamHeap} (h0 : h.size ≤ 0) :
    h.heap = [] ∧ ∀ i, h.rdrs.getD i [] = [] := by
  have hsum : sumLen h.rdrs = 0 ∧ h.heap.length = 0 := by
    simp only [StreamHeap.size, sumLen] at h0 ⊢
    omega
  refine ⟨List.eq_nil_of_length_eq_zero hsum.2, ?_⟩
  intro i
  rcases getD_mem_or [] h.rdrs i with hm | he
  · have : (h.rdrs.getD i []).length = 0 := by
      have := List.sum_eq_zero_iff.mp hsum.1
      exact this _ (List.mem_map_of_mem List.length hm)
    exact List.eq_nil_of_length_eq_zero this
  · exact he

/-- Postcondition of the drain loop, relating the result `r` to the
heap `h` and accumulator `outs` it started from. -/
structure DrainPost (h : StreamHeap) (m : Key) (outs : List FstOutput)
    (r : StreamHeap × List FstOutput) : Prop where
  sorted : HSorted r.1.heap
  idxLt : ∀ s ∈ r.1.heap, s.idx < r.1.num_slots
  nodup : (r.1.heap.map Slot.idx).Nodup
  pend : ∀ i, (r.1.pending i).Pairwise keyLt
  nslots : r.1.num_slots = h.num_slots
  size_le : r.1.size ≤ h.size
  filt : ∀ i k, k ∈ r.1.pending i ↔ (k ∈ h.pending i ∧ k ≠ m)
  idx_sub : ∀ s ∈ r.1.heap, s.idx ∈ h.heap.map Slot.idx
  keep : ∀ s ∈ h.heap, s.input ≠ m → s ∈ r.1.heap
  noSlotEmpty : ∀ i, slotFor r.1.heap i = none → slotFor h.heap i ≠ none → r.1.pending i = []
  outs_ext : ∃ ext, r.2 = outs ++ ext ∧ (ext.map FstOutput.index).Nodup ∧
    (∀ j, j ∈ ext.map FstOutput.index ↔ ∃ s ∈ h.heap, s.idx = j ∧ s.input = m)

/-- The trivial drain postcondition when `m` is pending nowhere. -/
theorem DrainPost_id {h : StreamHeap} {m : Key} {outs : List FstOutput}
    (hs : HSorted h.heap) (hidx : ∀ s ∈ h.heap, s.idx < h.num_slots)
    (hnd : (h.heap.map Slot.idx).Nodup) (hpend : ∀ i, (h.pending i).Pairwise keyLt)
    (hnom : ∀ i, m ∉ h.pending i) :
    DrainPost h m outs (h, outs) := by
  refine ⟨hs, hidx, hnd, hpend, rfl, Nat.le_refl _, ?_, ?_, fun s hs _ => hs,
    fun i h1 h2 => absurd h1 h2, ?_⟩
  · intro i k
    constructor
    · intro hk
      refine ⟨hk, ?_⟩
      intro he
      exact hnom i (he ▸ hk)
    · exact fun hk => hk.1
  · intro s hsmem
    exact List.mem_map_of_mem Slot.idx hsmem
  · refine ⟨[], by simp, List.nodup_nil, ?_⟩
    intro j
    simp only [List.map_nil, List.not_mem_nil, false_iff]
    rintro ⟨s, hsmem, _, hsm⟩
    exact hnom s.idx (hsm ▸ slot_key_pending hnd hsmem)

theorem drainLoopF_spec :
    ∀ (f : Nat) (h : StreamHeap) (m : Key) (outs : List FstOutput),
    h.size ≤ f →
    HSorted h.heap →
    (∀ s ∈ h.heap, s.idx < h.num_slots) →
    (h.heap.map Slot.idx).Nodup →
    (∀ i, (h.pending i).Pairwise keyLt) →
    (∀ i, ∀ k ∈ h.pending i, keyLe m k) →
    (∀ i, m ∈ h.pending i → ∃ s ∈ h.heap, s.idx = i ∧ s.input = m) →
    DrainPost h m outs (drainLoopF f h m outs) := by
  intro f
  induction f with
  | zero =>
    intro h m outs hf hs hidx hnd hpend hlb hcov
    obtain ⟨hheap, hrdrs⟩ := of_size_le_zero hf
    have hnom : ∀ i, m ∉ h.pending i := by
      intro i hm
      rcases hcov i hm with ⟨s, hsmem, _, _⟩
      rw [hheap] at hsmem
      exact List.not_mem_nil s hsmem
    exact DrainPost_id hs hidx hnd hpend hnom
  | succ f ih =>
    intro h m outs hf hs hidx hnd hpend hlb hcov
    cases hh : h.heap with
    | nil =>
      have hpie : h.pop_if_equal m = (none, h) := by
        unfold StreamHeap.pop_if_equal StreamHeap.peek_is_duplicate
        rw [hh]
        simp
      have hred : drainLoopF (f + 1) h m outs = (h, outs) := by
        simp only [drainLoopF, hpie]
      rw [hred]
      have hnom : ∀ i, m ∉ h.pending i := by
        intro i hm
        rcases hcov i hm with ⟨s, hsmem, _, _⟩
        rw [hh] at hsmem
        exact List.not_mem_nil s hsmem
      exact DrainPost_id hs hidx hnd hpend hnom
    | cons s0 t =>
      by_cases hbe : s0.input = m
      · -- the head is tied on `m`: pop it, refill it, recurse
        have hpie : h.pop_if_equal m = (some s0, ⟨h.rdrs, t⟩) := by
          unfold StreamHeap.pop_if_equal StreamHeap.peek_is_duplicate StreamHeap.pop
          rw [hh]
          simp [hbe]
        have hred : drainLoopF (f + 1) h m outs =
            drainLoopF f (StreamHeap.refill ⟨h.rdrs, t⟩ s0) m (outs ++ [s0.fst_output]) := by
          simp only [drainLoopF, hpie]
        rw [hred]
        rw [hh] at hs hidx hnd
        rw [List.map_cons, List.nodup_cons] at hnd
        obtain ⟨hs0nt, hndt⟩ := hnd
        obtain ⟨hs0t, hst⟩ := List.pairwise_cons.mp hs
        have hno_t : slotFor t s0.idx = none := by
          rw [slotFor_eq_none_iff]
          intro x hx he
          exact hs0nt (he ▸ List.mem_map_of_mem Slot.idx hx)
        have hhe : h = (⟨h.rdrs, s0 :: t⟩ : StreamHeap) := by rw [← hh]
        have hpend_h_s0 : h.pending s0.idx = m :: rdrKeys (h.rdrs.getD s0.idx []) := by
          rw [pending_cons_head hh, hbe]
        have hm_lt_tail : ∀ k ∈ rdrKeys (h.rdrs.getD s0.idx []), keyLt m k := by
          have hp := hpend s0.idx
          rw [hpend_h_s0] at hp
          exact (List.pairwise_cons.mp hp).1
        have hpend1_self :
            StreamHeap.pending ⟨h.rdrs, t⟩ s0.idx = rdrKeys (h.rdrs.getD s0.idx []) :=
          pending_no_slot hno_t
        have hpend1_other : ∀ i, i ≠ s0.idx → StreamHeap.pending ⟨h.rdrs, t⟩ i = h.pending i := by
          intro i hi
          rw [pending_pop_other (fun he => hi he.symm), ← hhe]
        have hpeq2 : ∀ i,
            (StreamHeap.refill ⟨h.rdrs, t⟩ s0).pending i = StreamHeap.pending ⟨h.rdrs, t⟩ i :=
          refill_pending hno_t hndt
        have hsize1 : (⟨h.rdrs, t⟩ : StreamHeap).size + 1 = h.size := by
          simp only [StreamHeap.size, hh, List.length_cons]
          omega
        have hsize2 : (StreamHeap.refill ⟨h.rdrs, t⟩ s0).size ≤ f := by
          rw [refill_size]
          omega
        have hs2 : HSorted (StreamHeap.refill ⟨h.rdrs, t⟩ s0).heap := refill_sorted hst
        have hidx2 : ∀ s ∈ (StreamHeap.refill ⟨h.rdrs, t⟩ s0).heap,
            s.idx < (StreamHeap.refill ⟨h.rdrs, t⟩ s0).num_slots :=
          refill_idxLt (fun x hx => hidx x (List.mem_cons_of_mem s0 hx))
        have hnd2 : ((StreamHeap.refill ⟨h.rdrs, t⟩ s0).heap.map Slot.idx).Nodup :=
          refill_nodup hno_t hndt
        have hnum2 : (StreamHeap.refill ⟨h.rdrs, t⟩ s0).num_slots = h.num_slots := by
          rw [refill_num_slots]
          rfl
        have hpend2 : ∀ i, ((StreamHeap.refill ⟨h.rdrs, t⟩ s0).pending i).Pairwise keyLt := by
          intro i
          rw [hpeq2 i]
          by_cases hi : i = s0.idx
          · rw [hi, hpend1_self]
            have hp := hpend s0.idx
            rw [hpend_h_s0] at hp
            exact hp.of_cons
          · rw [hpend1_other i hi]
            exact hpend i
        have hlb2 : ∀ i, ∀ k ∈ (StreamHeap.refill ⟨h.rdrs, t⟩ s0).pending i, keyLe m k := by
          intro i k hk
          rw [hpeq2 i] at hk
          by_cases hi : i = s0.idx
          · rw [hi, hpend1_self] at hk
            exact keyLe_of_lt (hm_lt_tail k hk)
          · rw [hpend1_other i hi] at hk
            exact hlb i k hk
        have hcov2 : ∀ i, m ∈ (StreamHeap.refill ⟨h.rdrs, t⟩ s0).pending i →
            ∃ s ∈ (StreamHeap.refill ⟨h.rdrs, t⟩ s0).heap, s.idx = i ∧ s.input = m := by
          intro i hm
          rw [hpeq2 i] at hm
          by_cases hi : i = s0.idx
          · rw [hi, hpend1_self] at hm
            exact absurd (hm_lt_tail m hm) (keyLt_irrefl m)
          · rw [hpend1_other i hi] at hm
            rcases hcov i hm with ⟨s, hsmem, hsidx, hsm⟩
            rw [hh] at hsmem
            rcases List.mem_cons.mp hsmem with he | hmt
            · exfalso
              apply hi
              rw [← hsidx, he]
            · exact ⟨s, refill_heap_subset s hmt, hsidx, hsm⟩
        have hno_m_s0 : ∀ s ∈ (StreamHeap.refill ⟨h.rdrs, t⟩ s0).heap,
            s.idx = s0.idx → s.input ≠ m := by
          intro s hsmem hsidx hsm
          unfold StreamHeap.refill at hsmem
          cases hrd : (⟨h.rdrs, t⟩ : StreamHeap).rdrs.getD s0.idx [] with
          | nil =>
            rw [hrd] at hsmem
            exact slotFor_eq_none_iff.mp hno_t s hsmem hsidx
          | cons kv rest =>
            rw [hrd] at hsmem
            simp only at hsmem
            rcases mem_heapPush.mp hsmem with he | hm2
            · have hkv : kv.1 ∈ rdrKeys (h.rdrs.getD s0.idx []) := by
                have hrd' : h.rdrs.getD s0.idx [] = kv :: rest := hrd
                rw [hrd']
                exact List.mem_map_of_mem Prod.fst (List.mem_cons_self _ _)
              have hlt := hm_lt_tail kv.1 hkv
              have hkvm : kv.1 = m := by rw [← hsm, he]
              exact keyLt_irrefl m (hkvm ▸ hlt)
            · exact slotFor_eq_none_iff.mp hno_t s hm2 hsidx
        obtain post := ih (StreamHeap.refill ⟨h.rdrs, t⟩ s0) m (outs ++ [s0.fst_output])
          hsize2 hs2 hidx2 hnd2 hpend2 hlb2 hcov2
        have hsf2_other : ∀ i, i ≠ s0.idx →
            slotFor (StreamHeap.refill ⟨h.rdrs, t⟩ s0).heap i = slotFor t i :=
          fun i hi => slotFor_refill_ne hno_t hndt hi
        refine ⟨post.sorted, post.idxLt, post.nodup, post.pend, post.nslots.trans hnum2,
          ?_, ?_, ?_, ?_, ?_, ?_⟩
        · refine Nat.le_trans post.size_le ?_
          rw [refill_size]
          omega
        · intro i k
          rw [post.filt i k, hpeq2 i]
          by_cases hi : i = s0.idx
          · rw [hi, hpend1_self, hpend_h_s0]
            constructor
            · rintro ⟨hk, hne⟩
              exact ⟨List.mem_cons_of_mem m hk, hne⟩
            · rintro ⟨hk, hne⟩
              rcases List.mem_cons.mp hk with he | hkt
              · exact absurd he hne
              · exact ⟨hkt, hne⟩
          · rw [hpend1_other i hi]
        · intro s hsmem
          have hsm := post.idx_sub s hsmem
          rcases List.mem_map.mp hsm with ⟨x, hx, he⟩
          rcases refill_heap_mem x hx with hxt | hxi
          · rw [hh, List.map_cons]
            exact List.mem_cons_of_mem _ (he ▸ List.mem_map_of_mem Slot.idx hxt)
          · rw [hh, List.map_cons]
            have : s.idx = s0.idx := by rw [← he, hxi]
            rw [this]
            exact List.mem_cons_self _ _
        · -- keep: slots not tied on m survive
          intro s hsmem hsne
          rw [hh] at hsmem
          rcases List.mem_cons.mp hsmem with he | hmt
          · exact absurd (he ▸ hbe) hsne
          · exact post.keep s (refill_heap_subset s hmt) hsne
        · -- noSlotEmpty: a vanished slot means an exhausted stream
          intro i hnoneR hsomeH
          by_cases hi : i = s0.idx
          · cases hsf2 : slotFor (StreamHeap.refill ⟨h.rdrs, t⟩ s0).heap i with
            | some u =>
              exact post.noSlotEmpty i hnoneR (by rw [hsf2]; exact fun hc => Option.noConfusion hc)
            | none =>
              have hsf2' : slotFor (StreamHeap.refill ⟨h.rdrs, t⟩ s0).heap s0.idx = none := by
                rw [← hi]
                exact hsf2
              obtain ⟨_, hrd⟩ := refill_drop (h := ⟨h.rdrs, t⟩) (s := s0) hsf2'
              have hpend2i : (StreamHeap.refill ⟨h.rdrs, t⟩ s0).pending i = [] := by
                rw [hi, hpeq2 s0.idx, hpend1_self]
                have hrd' : h.rdrs.getD s0.idx [] = [] := hrd
                rw [hrd']
                rfl
              rw [List.eq_nil_iff_forall_not_mem]
              intro k hk
              have := ((post.filt i k).mp hk).1
              rw [hpend2i] at this
              exact List.not_mem_nil k this
          · have hsfh : slotFor h.heap i = slotFor t i := by
              rw [hh]
              exact slotFor_cons_ne (fun he => hi he.symm)
            refine post.noSlotEmpty i hnoneR ?_
            rw [hsf2_other i hi, ← hsfh]
            exact hsomeH
        · obtain ⟨ext', hre, hndext, hmem⟩ := post.outs_ext
          refine ⟨s0.fst_output :: ext', ?_, ?_, ?_⟩
          · rw [hre, List.append_assoc]
            rfl
          · rw [List.map_cons, List.nodup_cons]
            refine ⟨?_, hndext⟩
            intro hmem0
            rcases (hmem s0.fst_output.index).mp hmem0 with ⟨s, hsmem2, hsidx, hsm⟩
            exact hno_m_s0 s hsmem2 hsidx hsm
          · intro j
            rw [List.map_cons]
            simp only [List.mem_cons]
            constructor
            · rintro (he | hj)
              · refine ⟨s0, ?_, he.symm, hbe⟩
                rw [hh]
                exact List.mem_cons_self _ _
              · rcases (hmem j).mp hj with ⟨s, hsmem2, hsidx, hsm⟩
                rcases refill_heap_mem s hsmem2 with hst2 | hsi
                · refine ⟨s, ?_, hsidx, hsm⟩
                  rw [hh]
                  exact List.mem_cons_of_mem _ hst2
                · exact absurd hsm (hno_m_s0 s hsmem2 hsi)
            · rintro ⟨s, hsmem2, hsidx, hsm⟩
              rw [hh] at hsmem2
              rcases List.mem_cons.mp hsmem2 with he | hst2
              · left
                rw [← hsidx, he]
                rfl
              · right
                exact (hmem j).mpr ⟨s, refill_heap_subset s hst2, hsidx, hsm⟩
      · have hpie : h.pop_if_equal m = (none, h) := by
          unfold StreamHeap.pop_if_equal StreamHeap.peek_is_duplicate
          rw [hh]
          simp [hbe]
        have hred : drainLoopF (f + 1) h m outs = (h, outs) := by
          simp only [drainLoopF, hpie]
        rw [hred]
        have hnom : ∀ i, m ∉ h.pending i := by
          intro i hm
          rcases hcov i hm with ⟨s, hsmem, hsidx, hsm⟩
          rw [hh] at hsmem
          have hles0 : keyLe m s0.input := by
            refine hlb s0.idx s0.input (slot_key_pending hnd ?_)
            rw [hh]; exact List.mem_cons_self _ _
          rcases List.mem_cons.mp hsmem with he | hmt
          · exact hbe (by rw [← he, hsm])
          · have hle : keyLe s0.input s.input :=
              Slot.pairLe_key (Slot.cmp_ne_lt_iff.mp ((List.pairwise_cons.mp (hh ▸ hs)).1 s hmt))
            rw [hsm] at hle
            exact hbe (keyLe_antisymm hles0 hle).symm
        exact DrainPost_id hs hidx hnd hpend hnom

/-! ## One pop-and-drain step of a merge cursor -/

theorem pop_drain_spec {h0 : StreamHeap} (hv : HInv h0) (hcov : Cover h0 none)
    {s0 : Slot} {t : List Slot} (hh : h0.heap = s0 :: t) :
    CInv (drainLoop ⟨h0.rdrs, t⟩ s0.input [s0.fst_output]).1 (some s0) ∧
    (∀ i, ∀ k ∈ h0.pending i, keyLe s0.input k) ∧
    s0.input ∈ h0.pending s0.idx ∧
    (∀ i k, k ∈ (drainLoop ⟨h0.rdrs, t⟩ s0.input [s0.fst_output]).1.pending i ↔
       (k ∈ h0.pending i ∧ k ≠ s0.input)) ∧
    ((drainLoop ⟨h0.rdrs, t⟩ s0.input [s0.fst_output]).2.map FstOutput.index).Nodup ∧
    (∀ j, j ∈ (drainLoop ⟨h0.rdrs, t⟩ s0.input [s0.fst_output]).2.map FstOutput.index ↔
       s0.input ∈ h0.pending j) ∧
    (drainLoop ⟨h0.rdrs, t⟩ s0.input [s0.fst_output]).1.size < h0.size ∧
    (drainLoop ⟨h0.rdrs, t⟩ s0.input [s0.fst_output]).1.num_slots = h0.num_slots := by
  obtain ⟨hs0rt, hidx0, hnd0, hpend0⟩ := hv
  have hv' : HInv h0 := ⟨hs0rt, hidx0, hnd0, hpend0⟩
  have hmin : ∀ i, ∀ k ∈ h0.pending i, keyLe s0.input k := heap_head_min hv' hcov hh
  have hpendAll := pending_sorted_all hv'
  have hmem_s0 : s0.input ∈ h0.pending s0.idx := by
    rw [pending_cons_head hh]
    exact List.mem_cons_self _ _
  have hndc : ((s0 :: t).map Slot.idx).Nodup := hh ▸ hnd0
  rw [List.map_cons, List.nodup_cons] at hndc
  obtain ⟨hs0nt, hndt⟩ := hndc
  have hsc : HSorted (s0 :: t) := hh ▸ hs0rt
  obtain ⟨hs0t, hst⟩ := List.pairwise_cons.mp hsc
  have hidxc : ∀ s ∈ s0 :: t, s.idx < h0.num_slots := by rw [← hh]; exact hidx0
  have hno_t : slotFor t s0.idx = none := by
    rw [slotFor_eq_none_iff]
    intro x hx he
    exact hs0nt (he ▸ List.mem_map_of_mem Slot.idx hx)
  have hhe : h0 = (⟨h0.rdrs, s0 :: t⟩ : StreamHeap) := by rw [← hh]
  have hpend_h_s0 : h0.pending s0.idx = s0.input :: rdrKeys (h0.rdrs.getD s0.idx []) :=
    pending_cons_head hh
  have hm_lt_tail : ∀ k ∈ rdrKeys (h0.rdrs.getD s0.idx []), keyLt s0.input k := by
    have hp := hpendAll s0.idx
    rw [hpend_h_s0] at hp
    exact (List.pairwise_cons.mp hp).1
  have hpend1_self :
      StreamHeap.pending ⟨h0.rdrs, t⟩ s0.idx = rdrKeys (h0.rdrs.getD s0.idx []) :=
    pending_no_slot hno_t
  have hpend1_other : ∀ i, i ≠ s0.idx → StreamHeap.pending ⟨h0.rdrs, t⟩ i = h0.pending i := by
    intro i hi
    rw [pending_pop_other (fun he => hi he.symm), ← hhe]
  have hhead : ∀ j, s0.input ∈ h0.pending j →
      j = s0.idx ∨ ∃ u ∈ t, u.idx = j ∧ u.input = s0.input := by
    intro j hmj
    by_cases hje : j = s0.idx
    · exact Or.inl hje
    right
    by_cases hj : j < h0.num_slots
    · cases hsf : slotFor h0.heap j with
      | none =>
        rw [hcov j hj hsf (by simp)] at hmj
        simp at hmj
      | some u =>
        have hu := slotFor_mem hsf
        have hum : u.input = s0.input := by
          rw [pending_some_slot hsf] at hmj
          rcases List.mem_cons.mp hmj with he | hmt
          · exact he.symm
          · exfalso
            have hlt : keyLt u.input s0.input := by
              have hp := hpendAll j
              rw [pending_some_slot hsf] at hp
              exact (List.pairwise_cons.mp hp).1 s0.input hmt
            have hle : keyLe s0.input u.input := by
              refine hmin j u.input ?_
              rw [pending_some_slot hsf]
              exact List.mem_cons_self _ _
            exact keyLt_irrefl _ (keyLt_of_le_of_lt hle hlt)
        have hut : u ∈ t := by
          have hu1 := hu.1
          rw [hh] at hu1
          rcases List.mem_cons.mp hu1 with he | hmt
          · exfalso; apply hje; rw [← hu.2, he]
          · exact hmt
        exact ⟨u, hut, hu.2, hum⟩
    · rw [pending_of_ge hidx0 (Nat.le_of_not_lt hj)] at hmj
      simp at hmj
  have hpend1 : ∀ i, (StreamHeap.pending ⟨h0.rdrs, t⟩ i).Pairwise keyLt := by
    intro i
    by_cases hi : i = s0.idx
    · rw [hi, hpend1_self]
      have hp := hpendAll s0.idx
      rw [hpend_h_s0] at hp
      exact hp.of_cons
    · rw [hpend1_other i hi]
      exact hpendAll i
  have hlb1 : ∀ i, ∀ k ∈ StreamHeap.pending ⟨h0.rdrs, t⟩ i, keyLe s0.input k := by
    intro i k hk
    by_cases hi : i = s0.idx
    · rw [hi, hpend1_self] at hk
      exact keyLe_of_lt (hm_lt_tail k hk)
    · rw [hpend1_other i hi] at hk
      exact hmin i k hk
  have hcov1 : ∀ i, s0.input ∈ StreamHeap.pending ⟨h0.rdrs, t⟩ i →
      ∃ s ∈ (⟨h0.rdrs, t⟩ : StreamHeap).heap, s.idx = i ∧ s.input = s0.input := by
    intro i hmi
    by_cases hi : i = s0.idx
    · rw [hi, hpend1_self] at hmi
      exact absurd (hm_lt_tail _ hmi) (keyLt_irrefl _)
    · rw [hpend1_other i hi] at hmi
      rcases hhead i hmi with he | ⟨u, hut, hui, hum⟩
      · exact absurd he hi
      · exact ⟨u, hut, hui, hum⟩
  have post := drainLoopF_spec ((⟨h0.rdrs, t⟩ : StreamHeap).size) ⟨h0.rdrs, t⟩ s0.input
      [s0.fst_output] (Nat.le_refl _) hst (fun x hx => hidxc x (List.mem_cons_of_mem s0 hx))
      hndt hpend1 hlb1 hcov1
  simp only [drainLoop]
  have hfilt : ∀ i k,
      k ∈ (drainLoopF ((⟨h0.rdrs, t⟩ : StreamHeap).size) ⟨h0.rdrs, t⟩ s0.input
        [s0.fst_output]).1.pending i ↔ (k ∈ h0.pending i ∧ k ≠ s0.input) := by
    intro i k
    rw [post.filt i k]
    by_cases hi : i = s0.idx
    · rw [hi, hpend1_self, hpend_h_s0]
      constructor
      · rintro ⟨hk, hne⟩
        exact ⟨List.mem_cons_of_mem _ hk, hne⟩
      · rintro ⟨hk, hne⟩
        rcases List.mem_cons.mp hk with he | hkt
        · exact absurd he hne
        · exact ⟨hkt, hne⟩
    · rw [hpend1_other i hi]
  have hEs0 : slotFor (drainLoopF ((⟨h0.rdrs, t⟩ : StreamHeap).size) ⟨h0.rdrs, t⟩ s0.input
      [s0.fst_output]).1.heap s0.idx = none := by
    rw [slotFor_eq_none_iff]
    intro x hx he
    have hxi := post.idx_sub x hx
    rw [he] at hxi
    exact hs0nt hxi
  have hcurlt : ∀ i, ∀ k ∈ (drainLoopF ((⟨h0.rdrs, t⟩ : StreamHeap).size) ⟨h0.rdrs, t⟩ s0.input
      [s0.fst_output]).1.pending i, keyLt s0.input k := by
    intro i k hk
    obtain ⟨hk0, hne⟩ := (hfilt i k).mp hk
    exact keyLt_of_le_of_ne (hmin i k hk0) (fun he => hne he.symm)
  have hcovR : Cover (drainLoopF ((⟨h0.rdrs, t⟩ : StreamHeap).size) ⟨h0.rdrs, t⟩ s0.input
      [s0.fst_output]).1 (some s0.idx) := by
    intro i hi hno hex
    have hine : i ≠ s0.idx := fun he => hex (by rw [he])
    cases hsf : slotFor (⟨h0.rdrs, t⟩ : StreamHeap).heap i with
    | some u =>
      exact post.noSlotEmpty i hno (by rw [hsf]; exact fun hc => Option.noConfusion hc)
    | none =>
      have hsf0 : slotFor h0.heap i = none := by
        rw [hh, slotFor_cons_ne (fun he => hine he.symm)]
        exact hsf
      have hi0 : i < h0.num_slots := by
        rw [post.nslots] at hi
        exact hi
      have hp0 : h0.pending i = [] := hcov i hi0 hsf0 (by simp)
      rw [List.eq_nil_iff_forall_not_mem]
      intro k hk
      have hk0 := ((hfilt i k).mp hk).1
      rw [hp0] at hk0
      exact List.not_mem_nil k hk0
  have hCInv : CInv (drainLoopF ((⟨h0.rdrs, t⟩ : StreamHeap).size) ⟨h0.rdrs, t⟩ s0.input
      [s0.fst_output]).1 (some s0) := by
    refine ⟨⟨post.sorted, post.idxLt, post.nodup, fun i _ => post.pend i⟩, hcovR, ?_, hEs0,
      fun i _ k hk => hcurlt i k hk⟩
    rw [post.nslots]
    exact hidxc s0 (List.mem_cons_self _ _)
  obtain ⟨ext, hre, hndext, hmem⟩ := post.outs_ext
  have houts_eq : (drainLoopF ((⟨h0.rdrs, t⟩ : StreamHeap).size) ⟨h0.rdrs, t⟩ s0.input
      [s0.fst_output]).2 = s0.fst_output :: ext := by
    rw [hre]
    rfl
  have hnodupouts : ((drainLoopF ((⟨h0.rdrs, t⟩ : StreamHeap).size) ⟨h0.rdrs, t⟩ s0.input
      [s0.fst_output]).2.map FstOutput.index).Nodup := by
    rw [houts_eq, List.map_cons, List.nodup_cons]
    refine ⟨?_, hndext⟩
    intro hmem0
    rcases (hmem s0.fst_output.index).mp hmem0 with ⟨s, hsmem, hsidx, _⟩
    apply hs0nt
    have hsidx' : s.idx = s0.idx := hsidx
    rw [← hsidx']
    exact List.mem_map_of_mem Slot.idx hsmem
  have hmemouts : ∀ j, j ∈ (drainLoopF ((⟨h0.rdrs, t⟩ : StreamHeap).size) ⟨h0.rdrs, t⟩ s0.input
      [s0.fst_output]).2.map FstOutput.index ↔ s0.input ∈ h0.pending j := by
    intro j
    rw [houts_eq, List.map_cons]
    simp only [List.mem_cons]
    constructor
    · rintro (he | hj)
      · have hje : j = s0.idx := he
        rw [hje]
        exact hmem_s0
      · rcases (hmem j).mp hj with ⟨s, hsmem, hsidx, hsm⟩
        rw [← hsidx, ← hsm]
        exact slot_key_pending hnd0 (by rw [hh]; exact List.mem_cons_of_mem s0 hsmem)
    · intro hmj
      rcases hhead j hmj with he | ⟨u, hut, hui, hum⟩
      · left
        exact he
      · right
        exact (hmem j).mpr ⟨u, hut, hui, hum⟩
  have hsize1 : (⟨h0.rdrs, t⟩ : StreamHeap).size + 1 = h0.size := by
    simp only [StreamHeap.size, hh, List.length_cons]
    omega
  have hsizeR : (drainLoopF ((⟨h0.rdrs, t⟩ : StreamHeap).size) ⟨h0.rdrs, t⟩ s0.input
      [s0.fst_output]).1.size < h0.size := by
    have hle := post.size_le
    omega
  exact ⟨hCInv, hmin, hmem_s0, hfilt, hnodupouts, hmemouts, hsizeR, post.nslots⟩

/-! ## Initialization: `StreamHeap.new` -/

/-- The input-stream contract: keys strictly ascending. -/
def SortedRdr (r : Rdr) : Prop := (rdrKeys r).Pairwise keyLt

instance (r : Rdr) : Decidable (SortedRdr r) := by
  unfold SortedRdr; infer_instance

theorem refill_getD_ne {h : StreamHeap} {s : Slot} {i : Nat} (hi : i ≠ s.idx) :
    (h.refill s).rdrs.getD i [] = h.rdrs.getD i [] := by
  unfold StreamHeap.refill
  cases hrd : h.rdrs.getD s.idx [] with
  | nil => rfl
  | cons kv rest => exact getD_set_ne [] h.rdrs s.idx i rest (fun he => hi he.symm)

theorem new_fold_spec (streams : List Rdr) :
    ∀ j, j ≤ streams.length →
    ((((List.range j).foldl (fun h i => h.refill (Slot.new i))
        ⟨streams, []⟩ : StreamHeap)).rdrs.length = streams.length ∧
     HSorted (((List.range j).foldl (fun h i => h.refill (Slot.new i))
        ⟨streams, []⟩ : StreamHeap)).heap ∧
     (∀ s ∈ (((List.range j).foldl (fun h i => h.refill (Slot.new i))
        ⟨streams, []⟩ : StreamHeap)).heap, s.idx < j) ∧
     ((((List.range j).foldl (fun h i => h.refill (Slot.new i))
        ⟨streams, []⟩ : StreamHeap)).heap.map Slot.idx).Nodup ∧
     (∀ i, j ≤ i → slotFor (((List.range j).foldl (fun h i => h.refill (Slot.new i))
        ⟨streams, []⟩ : StreamHeap)).heap i = none) ∧
     (∀ i, (((List.range j).foldl (fun h i => h.refill (Slot.new i))
        ⟨streams, []⟩ : StreamHeap)).pending i = rdrKeys (streams.getD i [])) ∧
     (∀ i, i < j → slotFor (((List.range j).foldl (fun h i => h.refill (Slot.new i))
        ⟨streams, []⟩ : StreamHeap)).heap i = none →
        (((List.range j).foldl (fun h i => h.refill (Slot.new i))
        ⟨streams, []⟩ : StreamHeap)).pending i = []) ∧
     (∀ i, j ≤ i → (((List.range j).foldl (fun h i => h.refill (Slot.new i))
        ⟨streams, []⟩ : StreamHeap)).rdrs.getD i [] = streams.getD i []) ∧
     (((List.range j).foldl (fun h i => h.refill (Slot.new i))
        ⟨streams, []⟩ : StreamHeap)).size = sumLen streams) := by
  intro j
  induction j with
  | zero =>
    intro _
    refine ⟨rfl, List.Pairwise.nil, by simp, by simp, fun i _ => rfl, fun i => rfl,
      fun i hi => absurd hi (Nat.not_lt_zero i), fun i _ => rfl, by simp [StreamHeap.size, sumLen]⟩
  | succ j ih =>
    intro hle
    have hj : j < streams.length := hle
    obtain ⟨hlen, hsort, hidx, hnd, hnos, hpend, hcovj, hgetD, hsz⟩ :=
      ih (Nat.le_of_lt hj)
    rw [List.range_succ, List.foldl_append]
    simp only [List.foldl_cons, List.foldl_nil]
    set st : StreamHeap :=
      (List.range j).foldl (fun h i => h.refill (Slot.new i)) ⟨streams, []⟩ with hst
    have hnoj : slotFor st.heap (Slot.new j).idx = none := hnos j (Nat.le_refl j)
    have hpeq : ∀ i, (st.refill (Slot.new j)).pending i = st.pending i :=
      refill_pending hnoj hnd
    refine ⟨?_, refill_sorted hsort, ?_, refill_nodup hnoj hnd, ?_, ?_, ?_, ?_, ?_⟩
    · rw [show (st.refill (Slot.new j)).rdrs.length = (st.refill (Slot.new j)).num_slots from rfl,
        refill_num_slots]
      exact hlen
    · intro s hs
      rcases refill_heap_mem s hs with hmem | hidxe
      · exact Nat.lt_succ_of_lt (hidx s hmem)
      · rw [hidxe]
        exact Nat.lt_succ_self j
    · intro i hi
      rw [slotFor_refill_ne hnoj hnd (fun he => by simp only [Slot.new] at he; omega)]
      exact hnos i (by omega)
    · intro i
      rw [hpeq i]
      exact hpend i
    · intro i hi hno
      rw [hpeq i]
      by_cases hij : i = j
      · have hno' : slotFor (st.refill (Slot.new j)).heap (Slot.new j).idx = none := by
          rw [hij] at hno
          exact hno
        obtain ⟨_, hrd⟩ := refill_drop hno'
        have hrd' : st.rdrs.getD i [] = [] := by
          rw [hij]
          exact hrd
        have hnoi : slotFor st.heap i = none := by
          rw [hij]
          exact hnoj
        rw [pending_no_slot hnoi, hrd']
        rfl
      · have hij' : i < j := by omega
        rw [slotFor_refill_ne hnoj hnd (fun he => by simp only [Slot.new] at he; omega)] at hno
        exact hcovj i hij' hno
    · intro i hi
      rw [refill_getD_ne (s := Slot.new j) (fun he => by simp [Slot.new] at he; omega)]
      exact hgetD i (by omega)
    · rw [refill_size]
      exact hsz

theorem new_spec (streams : List Rdr) (hs : ∀ r ∈ streams, SortedRdr r) :
    CInv (StreamHeap.new streams) none ∧
    (∀ i, (StreamHeap.new streams).pending i = rdrKeys (streams.getD i [])) ∧
    (StreamHeap.new streams).size = sumLen streams ∧
    (StreamHeap.new streams).num_slots = streams.length := by
  obtain ⟨hlen, hsort, hidx, hnd, _, hpend, hcovj, _, hsz⟩ :=
    new_fold_spec streams streams.length (Nat.le_refl _)
  have hnewe : ((List.range streams.length).foldl (fun h i => h.refill (Slot.new i))
      ⟨streams, []⟩ : StreamHeap) = StreamHeap.new streams := rfl
  rw [hnewe] at hlen hsort hidx hnd hpend hcovj hsz
  have hnum : (StreamHeap.new streams).num_slots = streams.length := hlen
  refine ⟨⟨⟨hsort, ?_, hnd, ?_⟩, ?_, trivial⟩, hpend, hsz, hnum⟩
  · intro s hsm
    rw [hnum]
    exact hidx s hsm
  · intro i _
    rw [hpend i]
    rcases getD_mem_or [] streams i with hm | he
    · exact hs _ hm
    · rw [he]
      exact List.Pairwise.nil
  · intro i hi hno _
    rw [hnum] at hi
    exact hcovj i hi hno

/-! ## The union cursor: step and run lemmas -/

/-- The body of `StreamUnion::next` after the lazy refill. -/
def unionStep (h0 : StreamHeap) : Option (Key × List FstOutput) × StreamUnion :=
  match h0.pop with
  | none => (none, ⟨h0, none⟩)
  | some (slot, h1) =>
    let r := drainLoop h1 slot.input [slot.fst_output]
    (some (slot.input, r.2), ⟨r.1, some slot⟩)

theorem union_next_eq (h : StreamHeap) (cur : Option Slot) :
    (StreamUnion.mk h cur).next =
      unionStep (match cur with
        | some c => h.refill c
        | none => h) := by
  cases cur <;> rfl

theorem unionStep_spec {h0 : StreamHeap} (hvi : HInv h0) (hcov : Cover h0 none) :
    ((unionStep h0).1 = none ∧ (unionStep h0).2 = ⟨h0, none⟩ ∧ (∀ i, h0.pending i = [])) ∨
    (∃ m outs u', unionStep h0 = (some (m, outs), u') ∧
      CInv u'.heap u'.cur_slot ∧
      (∃ c, u'.cur_slot = some c ∧ c.input = m) ∧
      (∀ i k, k ∈ u'.heap.pending i ↔ (k ∈ h0.pending i ∧ k ≠ m)) ∧
      (∀ i, ∀ k ∈ h0.pending i, keyLe m k) ∧
      (∃ i, m ∈ h0.pending i) ∧
      (outs.map FstOutput.index).Nodup ∧
      (∀ j, j ∈ outs.map FstOutput.index ↔ m ∈ h0.pending j) ∧
      u'.heap.size < h0.size ∧ u'.heap.num_slots = h0.num_slots) := by
  cases hh : h0.heap with
  | nil =>
    left
    have hpop : h0.pop = none := by
      unfold StreamHeap.pop
      rw [hh]
    refine ⟨by simp [unionStep, hpop], by simp [unionStep, hpop], ?_⟩
    intro i
    by_cases hi : i < h0.num_slots
    · refine hcov i hi ?_ (by simp)
      rw [slotFor_eq_none_iff]
      intro s hsm
      rw [hh] at hsm
      exact absurd hsm (List.not_mem_nil s)
    · exact pending_of_ge hvi.2.1 (Nat.le_of_not_lt hi)
  | cons s0 t =>
    right
    have hpop : h0.pop = some (s0, ⟨h0.rdrs, t⟩) := by
      unfold StreamHeap.pop
      rw [hh]
    obtain ⟨hCInv, hmin, hmem0, hfilt, hnodup, hmemouts, hsize, hnum⟩ :=
      pop_drain_spec hvi hcov hh
    refine ⟨s0.input, (drainLoop ⟨h0.rdrs, t⟩ s0.input [s0.fst_output]).2,
      ⟨(drainLoop ⟨h0.rdrs, t⟩ s0.input [s0.fst_output]).1, some s0⟩, ?_, hCInv,
      ⟨s0, rfl, rfl⟩, hfilt, hmin, ⟨s0.idx, hmem0⟩, hnodup, hmemouts, hsize, hnum⟩
    unfold unionStep
    rw [hpop]

theorem union_enter {h : StreamHeap} {cur : Option Slot} (hv : CInv h cur) :
    ∃ h0, (StreamUnion.mk h cur).next = unionStep h0 ∧ HInv h0 ∧ Cover h0 none ∧
      (∀ i, h0.pending i = h.pending i) ∧ h0.size = h.size ∧ h0.num_slots = h.num_slots := by
  cases cur with
  | none => exact ⟨h, union_next_eq h none, hv.1, hv.2.1, fun i => rfl, rfl, rfl⟩
  | some c =>
    obtain ⟨hinv0, hcov0, hpeq, hsz, hns⟩ := refill_cur hv
    exact ⟨h.refill c, union_next_eq h (some c), hinv0, hcov0, hpeq, hsz, hns⟩

theorem union_run_spec : ∀ (fuel : Nat) (h : StreamHeap) (cur : Option Slot),
    CInv h cur → h.size < fuel →
    ((((StreamUnion.mk h cur).run fuel).map Prod.fst).Pairwise keyLt ∧
     (∀ k, k ∈ ((StreamUnion.mk h cur).run fuel).map Prod.fst ↔ ∃ i, k ∈ h.pending i) ∧
     (∀ p ∈ (StreamUnion.mk h cur).run fuel, (p.2.map FstOutput.index).Nodup ∧
        ∀ j, j ∈ p.2.map FstOutput.index ↔ p.1 ∈ h.pending j)) := by
  intro fuel
  induction fuel with
  | zero =>
    intro h cur hv hf
    exact absurd hf (Nat.not_lt_zero _)
  | succ fuel ih =>
    intro h cur hv hf
    obtain ⟨h0, hne, hvi, hcov, hpeq, hsz, hns⟩ := union_enter hv
    rcases unionStep_spec hvi hcov with ⟨hnone, hstate, hpend0⟩ |
      ⟨m, outs, u', heq, hCInv, ⟨c, hc, hcm⟩, hfilt, hmin, ⟨i0, hmem0⟩, hnodup, hmemouts,
        hsize, hnum⟩
    · have hrun : (StreamUnion.mk h cur).run (fuel + 1) = [] := by
        show (match (StreamUnion.mk h cur).next with
          | (none, _) => ([] : List (Key × List FstOutput))
          | (some item, u2) => item :: u2.run fuel) = []
        rw [hne]
        rcases hu : unionStep h0 with ⟨res, u2⟩
        rw [hu] at hnone
        simp only at hnone
        rw [hnone]
      rw [hrun]
      refine ⟨List.Pairwise.nil, ?_, ?_⟩
      · intro k
        simp only [List.map_nil, List.not_mem_nil, false_iff, not_exists]
        intro i hk
        rw [← hpeq i, hpend0 i] at hk
        exact List.not_mem_nil k hk
      · intro p hp
        exact absurd hp (List.not_mem_nil p)
    · have hnext : (StreamUnion.mk h cur).next = (some (m, outs), u') := by rw [hne, heq]
      have hrun : (StreamUnion.mk h cur).run (fuel + 1) = (m, outs) :: u'.run fuel := by
        show (match (StreamUnion.mk h cur).next with
          | (none, _) => ([] : List (Key × List FstOutput))
          | (some item, u2) => item :: u2.run fuel) = _
        rw [hnext]
      have hfuel' : u'.heap.size < fuel := by omega
      have hCInv' : CInv u'.heap u'.cur_slot := hCInv
      have ihres := ih u'.heap u'.cur_slot hCInv' hfuel'
      have hetarun : (StreamUnion.mk u'.heap u'.cur_slot).run fuel = u'.run fuel := rfl
      rw [hetarun] at ihres
      obtain ⟨ihpair, ihmem, ihcontrib⟩ := ihres
      have hpendh : ∀ i k, k ∈ h.pending i ↔ k ∈ h0.pending i := by
        intro i k
        rw [hpeq i]
      rw [hrun]
      refine ⟨?_, ?_, ?_⟩
      · rw [List.map_cons]
        refine List.pairwise_cons.mpr ⟨?_, ihpair⟩
        intro k hk
        rcases (ihmem k).mp hk with ⟨i, hki⟩
        obtain ⟨hk0, hkne⟩ := (hfilt i k).mp hki
        exact keyLt_of_le_of_ne (hmin i k hk0) (fun he => hkne he.symm)
      · intro k
        rw [List.map_cons]
        simp only [List.mem_cons]
        constructor
        · rintro (he | hk)
          · exact ⟨i0, (hpendh i0 k).mpr (he ▸ hmem0)⟩
          · rcases (ihmem k).mp hk with ⟨i, hki⟩
            exact ⟨i, (hpendh i k).mpr ((hfilt i k).mp hki).1⟩
        · rintro ⟨i, hki⟩
          rw [hpendh i k] at hki
          by_cases hkm : k = m
          · exact Or.inl hkm
          · exact Or.inr ((ihmem k).mpr ⟨i, (hfilt i k).mpr ⟨hki, hkm⟩⟩)
      · intro p hp
        rcases List.mem_cons.mp hp with he | hpt
        · rw [he]
          refine ⟨hnodup, ?_⟩
          intro j
          rw [hmemouts j, hpendh j m]
        · obtain ⟨hnodup', hmem'⟩ := ihcontrib p hpt
          refine ⟨hnodup', ?_⟩
          intro j
          rw [hmem' j]
          have hp1ne : p.1 ≠ m := by
            have hp1 : p.1 ∈ (u'.run fuel).map Prod.fst := List.mem_map_of_mem Prod.fst hpt
            rcases (ihmem p.1).mp hp1 with ⟨i, hpi⟩
            exact ((hfilt i p.1).mp hpi).2
          rw [hfilt j p.1, hpendh j p.1]
          constructor
          · exact fun hx => hx.1
          · exact fun hx => ⟨hx, hp1ne⟩

theorem mem_getD {α : Type} (d : α) :
    ∀ {l : List α} {x : α}, x ∈ l → ∃ i, i < l.length ∧ l.getD i d = x := by
  intro l
  induction l with
  | nil => intro x hx; exact absurd hx (List.not_mem_nil x)
  | cons y t ih =>
    intro x hx
    rcases List.mem_cons.mp hx with he | ht
    · exact ⟨0, Nat.succ_pos _, he.symm⟩
    · rcases ih ht with ⟨i, hi, he⟩
      exact ⟨i + 1, Nat.succ_lt_succ hi, he⟩

/-- C1: the union cursor emits exactly the union of the input key sets,
in strictly ascending order, each key once. -/
theorem union_keys_set_union (streams : List Rdr)
    (hs : ∀ r ∈ streams, SortedRdr r) (fuel : Nat) (hf : sumLen streams < fuel) :
    ((((StreamOp.ofList streams).union.run fuel).map Prod.fst).Pairwise keyLt) ∧
    (∀ k, k ∈ ((StreamOp.ofList streams).union.run fuel).map Prod.fst ↔
      ∃ r ∈ streams, k ∈ rdrKeys r) := by
  obtain ⟨hCInv, hpend, hsz, hnum⟩ := new_spec streams hs
  have hu : (StreamOp.ofList streams).union = StreamUnion.mk (StreamHeap.new streams) none := by
    unfold StreamOp.union
    rw [StreamOp.ofList_streams]
  obtain ⟨hpair, hmem, _⟩ :=
    union_run_spec fuel (StreamHeap.new streams) none hCInv (by omega)
  rw [hu]
  refine ⟨hpair, ?_⟩
  intro k
  rw [hmem k]
  constructor
  · rintro ⟨i, hki⟩
    rw [hpend i] at hki
    rcases getD_mem_or [] streams i with hm | he
    · exact ⟨_, hm, hki⟩
    · rw [he] at hki
      exact absurd hki (List.not_mem_nil k)
  · rintro ⟨r, hr, hkr⟩
    rcases mem_getD [] hr with ⟨i, _, hgd⟩
    refine ⟨i, ?_⟩
    rw [hpend i, hgd]
    exact hkr

/-- C3: for every key the union emits, the contribution list carries
exactly the registration indices of the streams containing that key,
each once. -/
theorem union_contrib_complete (streams : List Rdr)
    (hs : ∀ r ∈ streams, SortedRdr r) (fuel : Nat) (hf : sumLen streams < fuel) :
    ∀ p ∈ (StreamOp.ofList streams).union.run fuel,
      (p.2.map FstOutput.index).Nodup ∧
      ∀ j, j ∈ p.2.map FstOutput.index ↔
        (j < streams.length ∧ p.1 ∈ rdrKeys (streams.getD j [])) := by
  obtain ⟨hCInv, hpend, hsz, hnum⟩ := new_spec streams hs
  have hu : (StreamOp.ofList streams).union = StreamUnion.mk (StreamHeap.new streams) none := by
    unfold StreamOp.union
    rw [StreamOp.ofList_streams]
  obtain ⟨_, _, hcontrib⟩ :=
    union_run_spec fuel (StreamHeap.new streams) none hCInv (by omega)
  rw [hu]
  intro p hp
  obtain ⟨hnd, hmem⟩ := hcontrib p hp
  refine ⟨hnd, ?_⟩
  intro j
  rw [hmem j, hpend j]
  constructor
  · intro hk
    by_cases hj : j < streams.length
    · exact ⟨hj, hk⟩
    · rw [getD_of_ge [] streams j (Nat.le_of_not_lt hj)] at hk
      exact absurd hk (List.not_mem_nil _)
  · exact fun hk => hk.2

/-- C9: the union of zero streams is immediately exhausted — the first
`next` returns nothing and leaves the cursor unchanged, and every run is
empty. -/
theorem union_empty_exhausted :
    StreamOp.new.union.next = ((none : Option (Key × List FstOutput)), StreamOp.new.union) ∧
    (∀ fuel, StreamOp.new.union.run fuel = []) := by
  refine ⟨rfl, ?_⟩
  intro fuel
  cases fuel with
  | zero => rfl
  | succ n => rfl

/-! ## The intersection cursor: candidate loop lemma -/

/-- A key pending in every registered stream. -/
def CommonKey (h : StreamHeap) (k : Key) : Prop := ∀ i < h.num_slots, k ∈ h.pending i

instance (h : StreamHeap) (k : Key) : Decidable (CommonKey h k) := by
  unfold CommonKey; exact Nat.decidableBallLT _ _

theorem nodup_range_sub_le {l : List Nat} {n : Nat} (hnd : l.Nodup)
    (hsub : ∀ j ∈ l, j < n) : l.length ≤ n := by
  have hcard : l.toFinset.card = l.length := List.toFinset_card_of_nodup hnd
  have hsubf : l.toFinset ⊆ Finset.range n := by
    intro j hj
    rw [List.mem_toFinset] at hj
    exact Finset.mem_range.mpr (hsub j hj)
  have hle := Finset.card_le_card hsubf
  rw [hcard, Finset.card_range] at hle
  exact hle

theorem nodup_range_sub_full {l : List Nat} {n : Nat} (hnd : l.Nodup)
    (hsub : ∀ j ∈ l, j < n) (hlen : n ≤ l.length) : ∀ j < n, j ∈ l := by
  have hcard : l.toFinset.card = l.length := List.toFinset_card_of_nodup hnd
  have hsubf : l.toFinset ⊆ Finset.range n := by
    intro j hj
    rw [List.mem_toFinset] at hj
    exact Finset.mem_range.mpr (hsub j hj)
  have heq : l.toFinset = Finset.range n :=
    Finset.eq_of_subset_of_card_le hsubf (by rw [hcard, Finset.card_range]; exact hlen)
  intro j hj
  rw [← List.mem_toFinset, heq]
  exact Finset.mem_range.mpr hj

theorem range_full_le_nodup {l : List Nat} {n : Nat} (hnd : l.Nodup)
    (hfull : ∀ j < n, j ∈ l) : n ≤ l.length := by
  have hcard : l.toFinset.card = l.length := List.toFinset_card_of_nodup hnd
  have hsubf : Finset.range n ⊆ l.toFinset := by
    intro j hj
    rw [List.mem_toFinset]
    exact hfull j (Finset.mem_range.mp hj)
  have hle := Finset.card_le_card hsubf
  rw [hcard, Finset.card_range] at hle
  exact hle

theorem interLoopF_spec :
    ∀ (f : Nat) (h : StreamHeap), h.size ≤ f → HInv h → Cover h none → 0 < h.num_slots →
    (((interLoopF f h).1 = none ∧ (interLoopF f h).2.2 = none ∧
      HInv (interLoopF f h).2.1 ∧ Cover (interLoopF f h).2.1 none ∧
      (interLoopF f h).2.1.num_slots = h.num_slots ∧
      (interLoopF f h).2.1.size ≤ h.size ∧
      (∀ i k, k ∈ (interLoopF f h).2.1.pending i → k ∈ h.pending i) ∧
      (∀ k, ¬ CommonKey h k)) ∨
     (∃ m outs slot, (interLoopF f h).1 = some (m, outs) ∧
      (interLoopF f h).2.2 = some slot ∧ slot.input = m ∧
      CInv (interLoopF f h).2.1 (some slot) ∧
      (∀ i k, k ∈ (interLoopF f h).2.1.pending i ↔ (k ∈ h.pending i ∧ keyLt m k)) ∧
      CommonKey h m ∧ (∀ k, CommonKey h k → keyLe m k) ∧
      (outs.map FstOutput.index).Nodup ∧
      (∀ j, j ∈ outs.map FstOutput.index ↔ (j < h.num_slots ∧ m ∈ h.pending j)) ∧
      (interLoopF f h).2.1.size < h.size ∧
      (interLoopF f h).2.1.num_slots = h.num_slots)) := by
  intro f
  induction f with
  | zero =>
    intro h hf hv hcov hn
    obtain ⟨hheap, hrdrs⟩ := of_size_le_zero hf
    left
    refine ⟨rfl, rfl, hv, hcov, rfl, Nat.le_refl _, fun i k hk => hk, ?_⟩
    intro k hk
    have hk0 := hk 0 hn
    have hno0 : slotFor h.heap 0 = none := by
      rw [slotFor_eq_none_iff]
      intro s hsm
      rw [hheap] at hsm
      exact absurd hsm (List.not_mem_nil s)
    have hp0 : h.pending 0 = [] := by
      rw [pending_no_slot hno0, hrdrs 0]
      rfl
    rw [hp0] at hk0
    exact List.not_mem_nil k hk0
  | succ f ih =>
    intro h hf hv hcov hn
    cases hh : h.heap with
    | nil =>
      have hpop : h.pop = none := by
        unfold StreamHeap.pop
        rw [hh]
      have hred : interLoopF (f + 1) h = (none, h, none) := by
        simp only [interLoopF, hpop]
      rw [hred]
      left
      refine ⟨rfl, rfl, hv, hcov, rfl, Nat.le_refl _, fun i k hk => hk, ?_⟩
      intro k hk
      have hk0 := hk 0 hn
      have hp0 : h.pending 0 = [] := by
        refine hcov 0 hn ?_ (by simp)
        rw [slotFor_eq_none_iff]
        intro s hsm
        rw [hh] at hsm
        exact absurd hsm (List.not_mem_nil s)
      rw [hp0] at hk0
      exact List.not_mem_nil k hk0
    | cons s0 t =>
      have hpop : h.pop = some (s0, ⟨h.rdrs, t⟩) := by
        unfold StreamHeap.pop
        rw [hh]
      obtain ⟨hCInv, hmin, hmem0, hfilt, hnodup, hmemouts, hsize, hnum⟩ :=
        pop_drain_spec hv hcov hh
      have houts_lt : ∀ j ∈ (drainLoop ⟨h.rdrs, t⟩ s0.input [s0.fst_output]).2.map
          FstOutput.index, j < h.num_slots := by
        intro j hj
        have hmj := (hmemouts j).mp hj
        by_contra hge
        rw [pending_of_ge hv.2.1 (Nat.le_of_not_lt hge)] at hmj
        exact List.not_mem_nil _ hmj
      by_cases hcond : (drainLoop ⟨h.rdrs, t⟩ s0.input [s0.fst_output]).2.length <
          (drainLoop ⟨h.rdrs, t⟩ s0.input [s0.fst_output]).1.num_slots
      · -- candidate rejected: not enough matches; refill and loop
        have hred : interLoopF (f + 1) h =
            interLoopF f ((drainLoop ⟨h.rdrs, t⟩ s0.input [s0.fst_output]).1.refill s0) := by
          simp only [interLoopF, hpop]
          rw [if_pos hcond]
        have hnotcommon : ¬ CommonKey h s0.input := by
          intro hcom
          have hfull : ∀ j < h.num_slots,
              j ∈ (drainLoop ⟨h.rdrs, t⟩ s0.input [s0.fst_output]).2.map FstOutput.index := by
            intro j hj
            exact (hmemouts j).mpr (hcom j hj)
          have hlen := range_full_le_nodup hnodup hfull
          rw [List.length_map] at hlen
          rw [hnum] at hcond
          omega
        obtain ⟨hinv3, hcov3, hpeq3, hsz3, hns3⟩ := refill_cur hCInv
        have hsz3' : ((drainLoop ⟨h.rdrs, t⟩ s0.input [s0.fst_output]).1.refill s0).size ≤ f := by
          omega
        have hn3 : 0 < ((drainLoop ⟨h.rdrs, t⟩ s0.input [s0.fst_output]).1.refill s0).num_slots := by
          rw [hns3, hnum]
          exact hn
        have hpend3 : ∀ i k,
            k ∈ ((drainLoop ⟨h.rdrs, t⟩ s0.input [s0.fst_output]).1.refill s0).pending i ↔
            (k ∈ h.pending i ∧ k ≠ s0.input) := by
          intro i k
          rw [hpeq3 i]
          exact hfilt i k
        have hncommon3 : ∀ k, CommonKey ((drainLoop ⟨h.rdrs, t⟩ s0.input
            [s0.fst_output]).1.refill s0) k ↔ (CommonKey h k ∧ k ≠ s0.input) := by
          intro k
          constructor
          · intro hck
            have hn' := hn
            have hk0 := hck 0 hn3
            obtain ⟨hk0h, hkne⟩ := (hpend3 0 k).mp hk0
            refine ⟨?_, hkne⟩
            intro i hi
            have hi3 : i < ((drainLoop ⟨h.rdrs, t⟩ s0.input
                [s0.fst_output]).1.refill s0).num_slots := by
              rw [hns3, hnum]
              exact hi
            exact ((hpend3 i k).mp (hck i hi3)).1
          · rintro ⟨hck, hkne⟩
            intro i hi
            rw [hns3, hnum] at hi
            exact (hpend3 i k).mpr ⟨hck i hi, hkne⟩
        rw [hred]
        rcases ih ((drainLoop ⟨h.rdrs, t⟩ s0.input [s0.fst_output]).1.refill s0) hsz3'
            hinv3 hcov3 hn3 with
          ⟨hres, hcur, hinvF, hcovF, hnumF, hszF, hsub, hnc⟩ |
          ⟨m, outs, slot, hres, hcur, hslot, hCInvF, hfiltF, hcomF, hminF, hndF, hmemF, hszF, hnumF⟩
        · left
          refine ⟨hres, hcur, hinvF, hcovF, by rw [hnumF, hns3, hnum], by omega, ?_, ?_⟩
          · intro i k hk
            exact ((hpend3 i k).mp (hsub i k hk)).1
          intro k hk
          by_cases hkm : k = s0.input
          · exact hnotcommon (hkm ▸ hk)
          · exact hnc k ((hncommon3 k).mpr ⟨hk, hkm⟩)
        · right
          have hcommonF : CommonKey h m ∧ m ≠ s0.input := (hncommon3 m).mp hcomF
          have hs0m : keyLt s0.input m := by
            have hm3 := hcomF 0 hn3
            obtain ⟨hmh, hmne⟩ := (hpend3 0 m).mp hm3
            exact keyLt_of_le_of_ne (hmin 0 m hmh) (fun he => hmne he.symm)
          refine ⟨m, outs, slot, hres, hcur, hslot, hCInvF, ?_, hcommonF.1, ?_, hndF, ?_,
            by omega, by rw [hnumF, hns3, hnum]⟩
          · intro i k
            rw [hfiltF i k, hpend3 i k]
            constructor
            · rintro ⟨⟨hkh, _⟩, hmk⟩
              exact ⟨hkh, hmk⟩
            · rintro ⟨hkh, hmk⟩
              refine ⟨⟨hkh, ?_⟩, hmk⟩
              intro he
              rw [he] at hmk
              exact keyLt_asymm hs0m hmk
          · intro k hck
            by_cases hkm : k = s0.input
            · exact absurd (hkm ▸ hck) hnotcommon
            · exact hminF k ((hncommon3 k).mpr ⟨hck, hkm⟩)
          · intro j
            rw [hmemF j, hns3, hnum]
            constructor
            · rintro ⟨hj, hmj⟩
              obtain ⟨hmjh, _⟩ := (hpend3 j m).mp hmj
              exact ⟨hj, hmjh⟩
            · rintro ⟨hj, hmj⟩
              refine ⟨hj, (hpend3 j m).mpr ⟨hmj, ?_⟩⟩
              intro he
              exact keyLt_irrefl _ (he ▸ hs0m)
      · -- candidate accepted: full match
        have hred : interLoopF (f + 1) h =
            (some (s0.input, (drainLoop ⟨h.rdrs, t⟩ s0.input [s0.fst_output]).2),
             (drainLoop ⟨h.rdrs, t⟩ s0.input [s0.fst_output]).1, some s0) := by
          simp only [interLoopF, hpop]
          rw [if_neg hcond]
        rw [hred]
        right
        have hlenout : h.num_slots ≤
            ((drainLoop ⟨h.rdrs, t⟩ s0.input [s0.fst_output]).2.map FstOutput.index).length := by
          rw [List.length_map]
          rw [hnum] at hcond
          omega
        have hfull := nodup_range_sub_full hnodup houts_lt hlenout
        have hcommon : CommonKey h s0.input := by
          intro j hj
          exact (hmemouts j).mp (hfull j hj)
        refine ⟨s0.input, (drainLoop ⟨h.rdrs, t⟩ s0.input [s0.fst_output]).2, s0, rfl, rfl, rfl,
          hCInv, ?_, hcommon, ?_, hnodup, ?_, hsize, hnum⟩
        · intro i k
          rw [hfilt i k]
          constructor
          · rintro ⟨hkh, hkne⟩
            exact ⟨hkh, keyLt_of_le_of_ne (hmin i k hkh) (fun he => hkne he.symm)⟩
          · rintro ⟨hkh, hlt⟩
            refine ⟨hkh, ?_⟩
            intro he
            exact keyLt_irrefl _ (he ▸ hlt)
        · intro k hck
          exact hmin 0 k (hck 0 hn)
        · intro j
          rw [hmemouts j]
          constructor
          · intro hmj
            by_cases hj : j < h.num_slots
            · exact ⟨hj, hmj⟩
            · rw [pending_of_ge hv.2.1 (Nat.le_of_not_lt hj)] at hmj
              exact absurd hmj (List.not_mem_nil _)
          · exact fun hx => hx.2

theorem inter_next_eq (h : StreamHeap) (cur : Option Slot) :
    (StreamIntersection.mk h cur).next =
      ((interLoop (match cur with | some c => h.refill c | none => h)).1,
       ⟨(interLoop (match cur with | some c => h.refill c | none => h)).2.1,
        (interLoop (match cur with | some c => h.refill c | none => h)).2.2⟩) := by
  cases cur <;> rfl

theorem inter_enter {h : StreamHeap} {cur : Option Slot} (hv : CInv h cur) :
    ∃ h0, HInv h0 ∧ Cover h0 none ∧ (∀ i, h0.pending i = h.pending i) ∧
      h0.size = h.size ∧ h0.num_slots = h.num_slots ∧
      (StreamIntersection.mk h cur).next =
        ((interLoop h0).1, ⟨(interLoop h0).2.1, (interLoop h0).2.2⟩) := by
  cases cur with
  | none => exact ⟨h, hv.1, hv.2.1, fun i => rfl, rfl, rfl, inter_next_eq h none⟩
  | some c =>
    obtain ⟨hinv0, hcov0, hpeq, hsz, hns⟩ := refill_cur hv
    exact ⟨h.refill c, hinv0, hcov0, hpeq, hsz, hns, inter_next_eq h (some c)⟩

theorem inter_run_spec : ∀ (fuel : Nat) (h : StreamHeap) (cur : Option Slot),
    CInv h cur → h.size < fuel → 0 < h.num_slots →
    ((((StreamIntersection.mk h cur).run fuel).map Prod.fst).Pairwise keyLt ∧
     (∀ k, k ∈ ((StreamIntersection.mk h cur).run fuel).map Prod.fst ↔
        (∀ i < h.num_slots, k ∈ h.pending i)) ∧
     (∀ p ∈ (StreamIntersection.mk h cur).run fuel, (p.2.map FstOutput.index).Nodup ∧
        ∀ j, j ∈ p.2.map FstOutput.index ↔ j < h.num_slots)) := by
  intro fuel
  induction fuel with
  | zero =>
    intro h cur hv hf
    exact absurd hf (Nat.not_lt_zero _)
  | succ fuel ih =>
    intro h cur hv hf hn
    obtain ⟨h0, hvi, hcov, hpeq, hsz, hns, hne⟩ := inter_enter hv
    have hn0 : 0 < h0.num_slots := by rw [hns]; exact hn
    have hcommon_iff : ∀ k, CommonKey h0 k ↔ (∀ i < h.num_slots, k ∈ h.pending i) := by
      intro k
      unfold CommonKey
      rw [hns]
      constructor
      · intro hc i hi
        rw [← hpeq i]
        exact hc i hi
      · intro hc i hi
        rw [hpeq i]
        exact hc i hi
    rcases interLoopF_spec h0.size h0 (Nat.le_refl _) hvi hcov hn0 with
      ⟨hres, hcur, _, _, _, _, _, hnc⟩ |
      ⟨m, outs, slot, hres, hcur, hslot, hCInvF, hfiltF, hcomF, hminF, hndF, hmemF, hszF, hnumF⟩
    · have hrun : (StreamIntersection.mk h cur).run (fuel + 1) = [] := by
        show (match (StreamIntersection.mk h cur).next with
          | (none, _) => ([] : List (Key × List FstOutput))
          | (some item, u2) => item :: u2.run fuel) = []
        rw [hne]
        have hres' : (interLoop h0).1 = none := hres
        rw [hres']
      rw [hrun]
      refine ⟨List.Pairwise.nil, ?_, fun p hp => absurd hp (List.not_mem_nil p)⟩
      intro k
      simp only [List.map_nil, List.not_mem_nil, false_iff]
      intro hc
      exact hnc k ((hcommon_iff k).mpr hc)
    · have hne' : (StreamIntersection.mk h cur).next =
          ((interLoopF h0.size h0).1,
           ⟨(interLoopF h0.size h0).2.1, (interLoopF h0.size h0).2.2⟩) := hne
      have hnext : (StreamIntersection.mk h cur).next =
          (some (m, outs), ⟨(interLoopF h0.size h0).2.1, some slot⟩) := by
        rw [hne', hres, hcur]
      have hrun : (StreamIntersection.mk h cur).run (fuel + 1) =
          (m, outs) :: (StreamIntersection.mk (interLoopF h0.size h0).2.1 (some slot)).run fuel := by
        show (match (StreamIntersection.mk h cur).next with
          | (none, _) => ([] : List (Key × List FstOutput))
          | (some item, u2) => item :: u2.run fuel) = _
        rw [hnext]
      have hszF' : (interLoopF h0.size h0).2.1.size < fuel := by omega
      have hnF : 0 < (interLoopF h0.size h0).2.1.num_slots := by
        rw [hnumF]
        exact hn0
      obtain ⟨ihpair, ihmem, ihcontrib⟩ :=
        ih (interLoopF h0.size h0).2.1 (some slot) hCInvF hszF' hnF
      have hnumF' : (interLoopF h0.size h0).2.1.num_slots = h.num_slots := by
        rw [hnumF, hns]
      rw [hrun]
      refine ⟨?_, ?_, ?_⟩
      · rw [List.map_cons]
        refine List.pairwise_cons.mpr ⟨?_, ihpair⟩
        intro k hk
        have hc := (ihmem k).mp hk
        have hk0 := hc 0 (by rw [hnumF']; exact hn)
        exact ((hfiltF 0 k).mp hk0).2
      · intro k
        rw [List.map_cons]
        simp only [List.mem_cons]
        constructor
        · rintro (he | hk)
          · subst he
            exact (hcommon_iff k).mp hcomF
          · have hc := (ihmem k).mp hk
            refine (hcommon_iff k).mp ?_
            intro i hi
            rw [← hnumF] at hi
            exact ((hfiltF i k).mp (hc i hi)).1
        · intro hc
          have hc0 := (hcommon_iff k).mpr hc
          have hle := hminF k hc0
          rcases keyLe_iff.mp hle with hlt | he
          · right
            refine (ihmem k).mpr ?_
            intro i hi
            rw [hnumF] at hi
            exact (hfiltF i k).mpr ⟨hc0 i hi, hlt⟩
          · left
            exact he.symm
      · intro p hp
        rcases List.mem_cons.mp hp with he | hpt
        · rw [he]
          refine ⟨hndF, ?_⟩
          intro j
          rw [hmemF j, hns]
          constructor
          · exact fun hx => hx.1
          · intro hj
            refine ⟨hj, ?_⟩
            exact hcomF j (by rw [← hns] at hj; exact hj)
        · obtain ⟨hnd', hmem'⟩ := ihcontrib p hpt
          refine ⟨hnd', ?_⟩
          intro j
          rw [hmem' j, hnumF']

theorem getD_mem_of_lt {α : Type} (d : α) :
    ∀ {l : List α} {i : Nat}, i < l.length → l.getD i d ∈ l := by
  intro l
  induction l with
  | nil => intro i hi; simp at hi
  | cons x t ih =>
    intro i hi
    cases i with
    | zero => exact List.mem_cons_self _ _
    | succ j => exact List.mem_cons_of_mem x (ih (Nat.lt_of_succ_lt_succ hi))

/-- C2 (amended): for a nonempty collection of sorted streams, the
intersection cursor emits exactly the keys present in every input
stream, in strictly ascending order. -/
theorem inter_keys_set_intersection (streams : List Rdr)
    (hs : ∀ r ∈ streams, SortedRdr r) (hne : 0 < streams.length)
    (fuel : Nat) (hf : sumLen streams < fuel) :
    ((((StreamOp.ofList streams).intersection.run fuel).map Prod.fst).Pairwise keyLt) ∧
    (∀ k, k ∈ ((StreamOp.ofList streams).intersection.run fuel).map Prod.fst ↔
      ∀ r ∈ streams, k ∈ rdrKeys r) := by
  obtain ⟨hCInv, hpend, hsz, hnum⟩ := new_spec streams hs
  have hu : (StreamOp.ofList streams).intersection =
      StreamIntersection.mk (StreamHeap.new streams) none := by
    unfold StreamOp.intersection
    rw [StreamOp.ofList_streams]
  obtain ⟨hpair, hmem, _⟩ :=
    inter_run_spec fuel (StreamHeap.new streams) none hCInv (by omega) (by omega)
  rw [hu]
  refine ⟨hpair, ?_⟩
  intro k
  rw [hmem k]
  constructor
  · intro hc r hr
    rcases mem_getD [] hr with ⟨i, hi, hgd⟩
    have := hc i (by rw [hnum]; exact hi)
    rw [hpend i, hgd] at this
    exact this
  · intro hc i hi
    rw [hpend i]
    rw [hnum] at hi
    exact hc _ (getD_mem_of_lt [] hi)

/-- C2 counterexample: with zero input streams the claim's biconditional
fails — the empty key is contained in every (i.e. all zero) input
streams, yet the intersection cursor emits nothing. -/
theorem inter_zero_streams_counterexample :
    (StreamOp.ofList []).intersection.run 1 = [] ∧
    (∀ r ∈ ([] : List Rdr), ([] : Key) ∈ rdrKeys r) := by
  refine ⟨rfl, ?_⟩
  intro r hr
  exact absurd hr (List.not_mem_nil r)

/-- C4: both merge cursors emit keys in strictly ascending
byte-lexicographic order (hence duplicate-free), honoring the same
strictly-increasing-key contract as their inputs. -/
theorem merge_keys_strictly_ascending (streams : List Rdr)
    (hs : ∀ r ∈ streams, SortedRdr r) (fuel : Nat) (hf : sumLen streams < fuel) :
    ((((StreamOp.ofList streams).union.run fuel).map Prod.fst).Pairwise keyLt) ∧
    ((((StreamOp.ofList streams).intersection.run fuel).map Prod.fst).Pairwise keyLt) := by
  refine ⟨(union_keys_set_union streams hs fuel hf).1, ?_⟩
  by_cases hne : 0 < streams.length
  · exact (inter_keys_set_intersection streams hs hne fuel hf).1
  · have hnil : streams = [] := List.eq_nil_of_length_eq_zero (by omega)
    subst hnil
    have hrunnil : (StreamOp.ofList []).intersection.run fuel = [] := by
      cases fuel with
      | zero => rfl
      | succ n => rfl
    rw [hrunnil]
    exact List.Pairwise.nil

/-! ## C5: an exhausted stream starves the intersection -/

theorem inter_next_exhausted {h : StreamHeap} {cur : Option Slot} (hv : CInv h cur)
    {i : Nat} (hi : i < h.num_slots) (hpi : h.pending i = []) :
    (StreamIntersection.mk h cur).next.1 = none ∧
    CInv ((StreamIntersection.mk h cur).next.2).heap
      ((StreamIntersection.mk h cur).next.2).cur_slot ∧
    ((StreamIntersection.mk h cur).next.2).heap.pending i = [] ∧
    ((StreamIntersection.mk h cur).next.2).heap.num_slots = h.num_slots := by
  obtain ⟨h0, hvi, hcov, hpeq, _, hns, hne⟩ := inter_enter hv
  have hn0 : 0 < h0.num_slots := by omega
  have hne' : (StreamIntersection.mk h cur).next =
      ((interLoopF h0.size h0).1,
       ⟨(interLoopF h0.size h0).2.1, (interLoopF h0.size h0).2.2⟩) := hne
  rcases interLoopF_spec h0.size h0 (Nat.le_refl _) hvi hcov hn0 with
    ⟨hres, hcur, hinvF, hcovF, hnumF, _, hsub, _⟩ |
    ⟨m, outs, slot, hres, hcur, hslot, hCInvF, hfiltF, hcomF, hminF, _, _, _, _⟩
  · rw [hne']
    refine ⟨hres, ?_, ?_, by rw [hnumF, hns]⟩
    · rw [hcur]
      exact ⟨hinvF, hcovF, trivial⟩
    · rw [List.eq_nil_iff_forall_not_mem]
      intro k hk
      have hk0 := hsub i k hk
      rw [hpeq i, hpi] at hk0
      exact List.not_mem_nil k hk0
  · exfalso
    have hmi := hcomF i (by rw [hns]; exact hi)
    rw [hpeq i, hpi] at hmi
    exact List.not_mem_nil m hmi

theorem inter_exh_steps : ∀ (n : Nat) (u : StreamIntersection) (i : Nat),
    CInv u.heap u.cur_slot → i < u.heap.num_slots → u.heap.pending i = [] →
    ((u.steps n).next.1 = none ∧ CInv (u.steps n).heap (u.steps n).cur_slot ∧
     i < (u.steps n).heap.num_slots ∧ (u.steps n).heap.pending i = []) := by
  intro n
  induction n with
  | zero =>
    intro u i hv hi hpi
    exact ⟨(inter_next_exhausted hv hi hpi).1, hv, hi, hpi⟩
  | succ n ih =>
    intro u i hv hi hpi
    obtain ⟨h1, h2, h3, h4⟩ := inter_next_exhausted hv hi hpi
    have h4' : u.next.2.heap.num_slots = u.heap.num_slots := h4
    show ((u.next.2).steps n).next.1 = none ∧ _ ∧ _ ∧ _
    exact ih u.next.2 i h2 (by omega) h3

/-- C5: once a registered stream is exhausted (no pending element), the
intersection's match count can never reach `num_slots()` again: every
`next` call of the cursor — now and after any number of further calls —
returns nothing, and every run is empty. -/
theorem inter_exhausted_stream_rejects_all {h : StreamHeap} {cur : Option Slot}
    (hv : CInv h cur) {i : Nat} (hi : i < h.num_slots) (hpi : h.pending i = []) :
    (∀ n, ((StreamIntersection.mk h cur).steps n).next.1 = none) ∧
    (∀ fuel, (StreamIntersection.mk h cur).run fuel = []) := by
  constructor
  · intro n
    exact (inter_exh_steps n (StreamIntersection.mk h cur) i hv hi hpi).1
  · intro fuel
    cases fuel with
    | zero => rfl
    | succ n =>
      have h1 := (inter_exh_steps 0 (StreamIntersection.mk h cur) i hv hi hpi).1
      show (match (StreamIntersection.mk h cur).next with
        | (none, _) => ([] : List (Key × List FstOutput))
        | (some item, u2) => item :: u2.run n) = []
      rcases hnx : (StreamIntersection.mk h cur).next with ⟨res, u2⟩
      have : res = none := by
        have := h1
        rw [show (StreamIntersection.mk h cur).steps 0 = StreamIntersection.mk h cur from rfl]
          at this
        rw [hnx] at this
        exact this
      rw [this]

/-! ## C6: the heap invariant at every reachable cursor state -/

theorem union_next_inv {h : StreamHeap} {cur : Option Slot} (hv : CInv h cur) :
    CInv ((StreamUnion.mk h cur).next.2).heap ((StreamUnion.mk h cur).next.2).cur_slot := by
  obtain ⟨h0, hne, hvi, hcov, _, _, _⟩ := union_enter hv
  rcases unionStep_spec hvi hcov with ⟨_, hstate, _⟩ | ⟨m, outs, u', heq, hCInv, _⟩
  · rw [hne, hstate]
    exact ⟨hvi, hcov, trivial⟩
  · rw [hne, heq]
    exact hCInv

theorem union_steps_inv : ∀ (n : Nat) (u : StreamUnion), CInv u.heap u.cur_slot →
    CInv (u.steps n).heap (u.steps n).cur_slot := by
  intro n
  induction n with
  | zero => exact fun u hv => hv
  | succ n ih =>
    intro u hv
    show CInv ((u.next.2).steps n).heap ((u.next.2).steps n).cur_slot
    exact ih u.next.2 (union_next_inv hv)

theorem num_slots_zero_heap_nil {h : StreamHeap} (hv : HInv h) (hn : h.num_slots = 0) :
    h.heap = [] := by
  rw [List.eq_nil_iff_forall_not_mem]
  intro s hsm
  have := hv.2.1 s hsm
  omega

theorem inter_next_inv {h : StreamHeap} {cur : Option Slot} (hv : CInv h cur) :
    CInv ((StreamIntersection.mk h cur).next.2).heap
      ((StreamIntersection.mk h cur).next.2).cur_slot := by
  obtain ⟨h0, hvi, hcov, _, _, hns, hne⟩ := inter_enter hv
  have hne' : (StreamIntersection.mk h cur).next =
      ((interLoopF h0.size h0).1,
       ⟨(interLoopF h0.size h0).2.1, (interLoopF h0.size h0).2.2⟩) := hne
  by_cases hn0 : 0 < h0.num_slots
  · rcases interLoopF_spec h0.size h0 (Nat.le_refl _) hvi hcov hn0 with
      ⟨_, hcur, hinvF, hcovF, _, _, _, _⟩ |
      ⟨m, outs, slot, _, hcur, _, hCInvF, _, _, _, _, _, _, _⟩
    · rw [hne', hcur]
      exact ⟨hinvF, hcovF, trivial⟩
    · rw [hne', hcur]
      exact hCInvF
  · -- zero registered streams: the heap is empty and the loop exits at once
    have hheap0 : h0.heap = [] := num_slots_zero_heap_nil hvi (by omega)
    have hrdrs0 : h0.rdrs = [] := by
      have : h0.rdrs.length = 0 := by
        have := hns
        unfold StreamHeap.num_slots at *
        omega
      exact List.eq_nil_of_length_eq_zero this
    have hsz0 : h0.size = 0 := by
      unfold StreamHeap.size
      rw [hheap0, hrdrs0]
      rfl
    have hloop : interLoopF h0.size h0 = (none, h0, none) := by
      rw [hsz0]
      rfl
    rw [hne', hloop]
    exact ⟨hvi, hcov, trivial⟩

theorem inter_steps_inv : ∀ (n : Nat) (u : StreamIntersection), CInv u.heap u.cur_slot →
    CInv (u.steps n).heap (u.steps n).cur_slot := by
  intro n
  induction n with
  | zero => exact fun u hv => hv
  | succ n ih =>
    intro u hv
    show CInv ((u.next.2).steps n).heap ((u.next.2).steps n).cur_slot
    exact ih u.next.2 (inter_next_inv hv)

/-- C6: at every reachable state of either merge cursor over sorted
streams, the heap holds at most one slot per stream ordinal, never the
withheld slot's ordinal, and exactly one slot for every stream that
still has pending (unreported) elements — a stream without a slot and
not withheld is exhausted. -/
theorem merge_heap_slot_invariant (streams : List Rdr)
    (hs : ∀ r ∈ streams, SortedRdr r) (n : Nat) :
    ((((((StreamOp.ofList streams).union.steps n).heap.heap.map Slot.idx).Nodup) ∧
      (∀ c, ((StreamOp.ofList streams).union.steps n).cur_slot = some c →
        slotFor ((StreamOp.ofList streams).union.steps n).heap.heap c.idx = none) ∧
      (∀ i < ((StreamOp.ofList streams).union.steps n).heap.num_slots,
        slotFor ((StreamOp.ofList streams).union.steps n).heap.heap i = none →
        (∀ c, ((StreamOp.ofList streams).union.steps n).cur_slot = some c → c.idx ≠ i) →
        ((StreamOp.ofList streams).union.steps n).heap.pending i = [])) ∧
     (((((StreamOp.ofList streams).intersection.steps n).heap.heap.map Slot.idx).Nodup) ∧
      (∀ c, ((StreamOp.ofList streams).intersection.steps n).cur_slot = some c →
        slotFor ((StreamOp.ofList streams).intersection.steps n).heap.heap c.idx = none) ∧
      (∀ i < ((StreamOp.ofList streams).intersection.steps n).heap.num_slots,
        slotFor ((StreamOp.ofList streams).intersection.steps n).heap.heap i = none →
        (∀ c, ((StreamOp.ofList streams).intersection.steps n).cur_slot = some c → c.idx ≠ i) →
        ((StreamOp.ofList streams).intersection.steps n).heap.pending i = []))) := by
  obtain ⟨hCInv, _, _, _⟩ := new_spec streams hs
  have hu : (StreamOp.ofList streams).union = StreamUnion.mk (StreamHeap.new streams) none := by
    unfold StreamOp.union
    rw [StreamOp.ofList_streams]
  have hi : (StreamOp.ofList streams).intersection =
      StreamIntersection.mk (StreamHeap.new streams) none := by
    unfold StreamOp.intersection
    rw [StreamOp.ofList_streams]
  constructor
  · rw [hu]
    obtain ⟨hinv, hcov, hcur⟩ :=
      union_steps_inv n (StreamUnion.mk (StreamHeap.new streams) none) hCInv
    refine ⟨hinv.2.2.1, ?_, ?_⟩
    · intro c hc
      rw [hc] at hcur
      exact hcur.2.1
    · intro i hilt hno hex
      refine hcov i hilt hno ?_
      intro he
      cases hcs : ((StreamUnion.mk (StreamHeap.new streams) none).steps n).cur_slot with
      | none => rw [hcs] at he; exact Option.noConfusion he
      | some c =>
        rw [hcs] at he
        exact hex c hcs (Option.some.inj he)
  · rw [hi]
    obtain ⟨hinv, hcov, hcur⟩ :=
      inter_steps_inv n (StreamIntersection.mk (StreamHeap.new streams) none) hCInv
    refine ⟨hinv.2.2.1, ?_, ?_⟩
    · intro c hc
      rw [hc] at hcur
      exact hcur.2.1
    · intro i hilt hno hex
      refine hcov i hilt hno ?_
      intro he
      cases hcs : ((StreamIntersection.mk (StreamHeap.new streams) none).steps n).cur_slot with
      | none => rw [hcs] at he; exact Option.noConfusion he
      | some c =>
        rw [hcs] at he
        exact hex c hcs (Option.some.inj he)

/-! ## C7, C8, C10 -/

/-- C7: `Slot`'s comparison is the reverse of the lexicographic
`(key bytes, output value)` comparison, never depends on the stream
ordinal, and consequently the top (maximum) of the sorted heap is the
slot with the smallest `(key, value)` pair. -/
theorem slot_cmp_spec :
    (∀ a b : Slot, Slot.cmp a b =
      ((keyCmp a.input b.input).then (compare a.output b.output)).swap) ∧
    (∀ (a b : Slot) (i j : Nat),
      Slot.cmp ⟨i, a.input, a.output⟩ ⟨j, b.input, b.output⟩ = Slot.cmp a b) ∧
    (∀ (s0 : Slot) (t : List Slot), HSorted (s0 :: t) → ∀ x ∈ s0 :: t,
      (keyCmp s0.input x.input).then (compare s0.output x.output) ≠ .gt) := by
  refine ⟨fun a b => rfl, fun a b i j => rfl, ?_⟩
  intro s0 t hs x hx
  rcases List.mem_cons.mp hx with he | ht
  · rw [he]
    exact Slot.pairLe_refl s0
  · exact Slot.cmp_ne_lt_iff.mp ((List.pairwise_cons.mp hs).1 x ht)

theorem slot_cmp_spec_witness :
    HSorted [(⟨0, [1], 2⟩ : Slot), ⟨1, [2], 0⟩] ∧
    (keyCmp ([1] : Key) [2]).then (compare 2 0) ≠ .gt :=
  ⟨by decide,
   slot_cmp_spec.2.2 ⟨0, [1], 2⟩ [⟨1, [2], 0⟩] (by decide) ⟨1, [2], 0⟩ (by decide)⟩

/-- C8: `pop_if_equal(key)` pops the top (minimum) slot exactly when its
key equals `key`; otherwise it reports no match and leaves the heap
completely unchanged.  Under the heap-order invariant the top slot's
`(key, value)` pair is minimal among all slots. -/
theorem pop_if_equal_spec (h : StreamHeap) (k : Key) (hs : HSorted h.heap) :
    (∀ s h2, h.pop_if_equal k = (some s, h2) ↔
      (h.heap.head? = some s ∧ s.input = k ∧ h2 = ⟨h.rdrs, h.heap.tail⟩)) ∧
    ((h.pop_if_equal k).1 = none → (h.pop_if_equal k).2 = h) ∧
    ((h.pop_if_equal k).1 = none ↔ ∀ s, h.heap.head? = some s → s.input ≠ k) ∧
    (∀ s, h.heap.head? = some s → ∀ x ∈ h.heap, Slot.pairCmp s x ≠ .gt) := by
  have hmin4 : ∀ s, h.heap.head? = some s → ∀ x ∈ h.heap, Slot.pairCmp s x ≠ .gt := by
    intro s hhd x hx
    cases hh : h.heap with
    | nil =>
      rw [hh] at hhd
      exact Option.noConfusion hhd
    | cons s0 t =>
      rw [hh] at hhd hx
      have hse : s0 = s := Option.some.inj hhd
      subst hse
      rcases List.mem_cons.mp hx with he | ht
      · rw [he]
        exact Slot.pairLe_refl s0
      · exact Slot.cmp_ne_lt_iff.mp ((List.pairwise_cons.mp (hh ▸ hs)).1 x ht)
  cases hh : h.heap with
  | nil =>
    rw [hh] at hmin4
    have hpe : h.pop_if_equal k = (none, h) := by
      unfold StreamHeap.pop_if_equal StreamHeap.peek_is_duplicate
      rw [hh]
      simp
    refine ⟨?_, ?_, ?_, hmin4⟩
    · intro s h2
      rw [hpe]
      constructor
      · intro he
        exact Option.noConfusion (congrArg Prod.fst he)
      · rintro ⟨hhd, _, _⟩
        exact Option.noConfusion hhd
    · intro _
      rw [hpe]
    · rw [hpe]
      simp
  | cons s0 t =>
    rw [hh] at hmin4
    by_cases hbe : s0.input = k
    · have hpe : h.pop_if_equal k = (some s0, ⟨h.rdrs, t⟩) := by
        unfold StreamHeap.pop_if_equal StreamHeap.peek_is_duplicate StreamHeap.pop
        rw [hh]
        simp [hbe]
      refine ⟨?_, ?_, ?_, hmin4⟩
      · intro s h2
        rw [hpe]
        constructor
        · intro he
          have h1 := congrArg Prod.fst he
          have h2e := congrArg Prod.snd he
          simp only at h1 h2e
          have hse : s0 = s := Option.some.inj h1
          subst hse
          exact ⟨rfl, hbe, h2e.symm⟩
        · rintro ⟨hhd, _, hh2⟩
          have hse : s0 = s := Option.some.inj hhd
          subst hse
          rw [hh2]
          rfl
      · intro hc
        rw [hpe] at hc
        exact Option.noConfusion hc
      · rw [hpe]
        constructor
        · intro hc
          exact Option.noConfusion hc
        · intro hc
          exact absurd hbe (hc s0 rfl)
    · have hpe : h.pop_if_equal k = (none, h) := by
        unfold StreamHeap.pop_if_equal StreamHeap.peek_is_duplicate
        rw [hh]
        simp [hbe]
      refine ⟨?_, ?_, ?_, hmin4⟩
      · intro s h2
        rw [hpe]
        constructor
        · intro he
          exact Option.noConfusion (congrArg Prod.fst he)
        · rintro ⟨hhd, hsk, _⟩
          have hse : s0 = s := Option.some.inj hhd
          exact absurd (hse ▸ hsk) hbe
      · intro _
        rw [hpe]
      · rw [hpe]
        simp only [true_iff]
        intro s hhd
        have hse : s0 = s := Option.some.inj hhd
        rw [← hse]
        exact hbe

theorem pop_if_equal_spec_witness :
    HSorted [(⟨0, [1], 2⟩ : Slot), ⟨1, [2], 0⟩] ∧
    ((∀ s h2, (StreamHeap.mk [] [⟨0, [1], 2⟩, ⟨1, [2], 0⟩]).pop_if_equal [1] = (some s, h2) ↔
      ((StreamHeap.mk [] [⟨0, [1], 2⟩, ⟨1, [2], 0⟩]).heap.head? = some s ∧ s.input = [1] ∧
       h2 = ⟨(StreamHeap.mk [] [⟨0, [1], 2⟩, ⟨1, [2], 0⟩]).rdrs,
         (StreamHeap.mk [] [⟨0, [1], 2⟩, ⟨1, [2], 0⟩]).heap.tail⟩)) ∧
     (((StreamHeap.mk [] [⟨0, [1], 2⟩, ⟨1, [2], 0⟩]).pop_if_equal [1]).1 = none →
       ((StreamHeap.mk [] [⟨0, [1], 2⟩, ⟨1, [2], 0⟩]).pop_if_equal [1]).2 =
         StreamHeap.mk [] [⟨0, [1], 2⟩, ⟨1, [2], 0⟩]) ∧
     (((StreamHeap.mk [] [⟨0, [1], 2⟩, ⟨1, [2], 0⟩]).pop_if_equal [1]).1 = none ↔
       ∀ s, (StreamHeap.mk [] [⟨0, [1], 2⟩, ⟨1, [2], 0⟩]).heap.head? = some s → s.input ≠ [1]) ∧
     (∀ s, (StreamHeap.mk [] [⟨0, [1], 2⟩, ⟨1, [2], 0⟩]).heap.head? = some s →
       ∀ x ∈ (StreamHeap.mk [] [⟨0, [1], 2⟩, ⟨1, [2], 0⟩]).heap, Slot.pairCmp s x ≠ .gt)) :=
  ⟨by decide, pop_if_equal_spec (StreamHeap.mk [] [⟨0, [1], 2⟩, ⟨1, [2], 0⟩]) [1] (by decide)⟩

/-- C10: the intersection of zero streams is immediately exhausted: the
heap is empty so the initial pop fails, and the cursor never emits —
the zero-stream edge case is resolved as "exhausted", not "all keys
match", even though `num_slots()` is 0. -/
theorem inter_empty_exhausted :
    StreamOp.new.intersection.heap.num_slots = 0 ∧
    StreamOp.new.intersection.next =
      ((none : Option (Key × List FstOutput)), StreamOp.new.intersection) ∧
    (∀ fuel, StreamOp.new.intersection.run fuel = []) := by
  refine ⟨rfl, rfl, ?_⟩
  intro fuel
  cases fuel with
  | zero => rfl
  | succ n => rfl

/-! ## Concrete witnesses -/

/-- Two sorted example streams: `{a, b}` and `{b, z}` with outputs. -/
def exStreams : List Rdr := [[([97], 1), ([98], 2)], [([98], 5), ([122], 3)]]

theorem union_keys_set_union_witness :
    (∀ r ∈ exStreams, SortedRdr r) ∧ sumLen exStreams < 5 ∧
    (((((StreamOp.ofList exStreams).union.run 5).map Prod.fst).Pairwise keyLt) ∧
     (∀ k, k ∈ ((StreamOp.ofList exStreams).union.run 5).map Prod.fst ↔
       ∃ r ∈ exStreams, k ∈ rdrKeys r)) :=
  ⟨by decide, by decide, union_keys_set_union exStreams (by decide) 5 (by decide)⟩

theorem inter_keys_set_intersection_witness :
    (∀ r ∈ exStreams, SortedRdr r) ∧ 0 < exStreams.length ∧ sumLen exStreams < 5 ∧
    (((((StreamOp.ofList exStreams).intersection.run 5).map Prod.fst).Pairwise keyLt) ∧
     (∀ k, k ∈ ((StreamOp.ofList exStreams).intersection.run 5).map Prod.fst ↔
       ∀ r ∈ exStreams, k ∈ rdrKeys r)) :=
  ⟨by decide, by decide, by decide,
   inter_keys_set_intersection exStreams (by decide) (by decide) 5 (by decide)⟩

theorem union_contrib_complete_witness :
    (∀ r ∈ exStreams, SortedRdr r) ∧ sumLen exStreams < 5 ∧
    (∀ p ∈ (StreamOp.ofList exStreams).union.run 5,
      (p.2.map FstOutput.index).Nodup ∧
      ∀ j, j ∈ p.2.map FstOutput.index ↔
        (j < exStreams.length ∧ p.1 ∈ rdrKeys (exStreams.getD j []))) :=
  ⟨by decide, by decide, union_contrib_complete exStreams (by decide) 5 (by decide)⟩

theorem merge_keys_strictly_ascending_witness :
    (∀ r ∈ exStreams, SortedRdr r) ∧ sumLen exStreams < 5 ∧
    (((((StreamOp.ofList exStreams).union.run 5).map Prod.fst).Pairwise keyLt) ∧
     ((((StreamOp.ofList exStreams).intersection.run 5).map Prod.fst).Pairwise keyLt)) :=
  ⟨by decide, by decide, merge_keys_strictly_ascending exStreams (by decide) 5 (by decide)⟩

theorem inter_exhausted_stream_rejects_all_witness :
    CInv (StreamHeap.new [[], [(([5] : Key), 7)]]) none ∧
    0 < (StreamHeap.new [[], [(([5] : Key), 7)]]).num_slots ∧
    (StreamHeap.new [[], [(([5] : Key), 7)]]).pending 0 = [] ∧
    ((∀ n, ((StreamIntersection.mk (StreamHeap.new [[], [(([5] : Key), 7)]]) none).steps
        n).next.1 = none) ∧
     (∀ fuel,
        (StreamIntersection.mk (StreamHeap.new [[], [(([5] : Key), 7)]]) none).run fuel = [])) :=
  ⟨by decide, by decide, by decide,
   inter_exhausted_stream_rejects_all (by decide) (i := 0) (by decide) (by decide)⟩

theorem merge_heap_slot_invariant_witness :
    (∀ r ∈ exStreams, SortedRdr r) ∧
    ((((((StreamOp.ofList exStreams).union.steps 1).heap.heap.map Slot.idx).Nodup) ∧
      (∀ c, ((StreamOp.ofList exStreams).union.steps 1).cur_slot = some c →
        slotFor ((StreamOp.ofList exStreams).union.steps 1).heap.heap c.idx = none) ∧
      (∀ i < ((StreamOp.ofList exStreams).union.steps 1).heap.num_slots,
        slotFor ((StreamOp.ofList exStreams).union.steps 1).heap.heap i = none →
        (∀ c, ((StreamOp.ofList exStreams).union.steps 1).cur_slot = some c → c.idx ≠ i) →
        ((StreamOp.ofList exStreams).union.steps 1).heap.pending i = [])) ∧
     (((((StreamOp.ofList exStreams).intersection.steps 1).heap.heap.map Slot.idx).Nodup) ∧
      (∀ c, ((StreamOp.ofList exStreams).intersection.steps 1).cur_slot = some c →
        slotFor ((StreamOp.ofList exStreams).intersection.steps 1).heap.heap c.idx = none) ∧
      (∀ i < ((StreamOp.ofList exStreams).intersection.steps 1).heap.num_slots,
        slotFor ((StreamOp.ofList exStreams).intersection.steps 1).heap.heap i = none →
        (∀ c, ((StreamOp.ofList exStreams).intersection.steps 1).cur_slot = some c → c.idx ≠ i) →
        ((StreamOp.ofList exStreams).intersection.steps 1).heap.pending i = []))) :=
  ⟨by decide, merge_heap_slot_invariant exStreams (by decide) 1⟩
